import Mathlib

/-!
Verification development for the Make-URL-File-Documentation-Scraper
repository.  The JavaScript sources under scrutiny are shallowly embedded
as executable Lean definitions:

* `src/urlUtils.js` — `normalizeUrl`, `isValidUrl`, `extractHostname`,
  `cleanUrl`;
* `src/smartUrlFilter.js` — `shouldVisitUrl` (the 17-rule admission
  filter) and its keyword gate;
* `src/processUrls.js` — the pure core of `processUrl` (URL checks,
  the render step, and link filtering);
* `src/crawlWebsite.js` — the frontier scheduler `crawlWebsite`
  (continuation setup, dispatch loop, periodic/final persistence saves).

Modelling conventions, stated once:

* URLs are plain strings.  The WHATWG URL parser used by `new URL(...)`
  is embedded for absolute `http`/`https` URLs without userinfo, port or
  embedded whitespace (the JS parser percent-encodes whitespace and
  lowercases hosts; inputs are restricted to URLs already in that shape).
  Fragments (`#...`) are dropped exactly as `origin + pathname + search`
  drops them.
* `URLSearchParams` is embedded without percent-decoding: the query is
  split on `&`, empty pieces are discarded, each piece splits at its
  first `=`.  After a `delete`, `url.search` re-serialises the remaining
  pairs as `name=value` joined by `&` — exactly what `cleanUrl` observes.
* JavaScript `Set` objects are embedded as duplicate-free lists in
  insertion order (`addSet`).
* The crawl loop is embedded sequentially: one dispatch is carried to
  completion (its `.then` callback included) before the next pop.  This
  coincides with the source loop at `maxConcurrent = 1`; the
  `activePromises` bookkeeping collapses.  The render gateway is an
  oracle `render : String → Option (List String)`: `some pageLinks` is a
  navigation that reaches the `visitedUrls.add(cleanedUrl)` mark (the
  page loaded; `pageLinks` are its outbound links, and the no-links and
  invalid-title outcomes are `some []`), while `none` is a failed
  navigation (no response, HTTP status ≥ 400, empty content, or a thrown
  `goto`), which in the source returns from `processUrl` before the
  cleaned URL is marked visited — after `page.goto` has already been
  invoked.  The loop takes explicit fuel; termination is proved
  separately.
-/

/-! ## Character/list helpers (embedding JS string primitives) -/

/-- JS whitespace as used by `trim` (restricted to the ASCII cases). -/
def isWsChar (c : Char) : Bool := c = ' ' || c = '\t' || c = '\n' || c = '\r'

/-- Embeds `String.prototype.trim`. -/
def trimL (l : List Char) : List Char :=
  ((l.dropWhile isWsChar).reverse.dropWhile isWsChar).reverse

/-- Embeds `String.prototype.toLowerCase` (ASCII). -/
def lowerL (l : List Char) : List Char := l.map Char.toLower

/-- Embeds `String.prototype.split(sep)` for a single-character separator. -/
def splitOnChar (sep : Char) : List Char → List (List Char)
  | [] => [[]]
  | c :: cs =>
    if c = sep then [] :: splitOnChar sep cs
    else
      match splitOnChar sep cs with
      | [] => [[c]]
      | h :: t => (c :: h) :: t

/-- Substring occurrence on character lists (`String.prototype.includes`). -/
def containsL (pat : List Char) : List Char → Bool
  | [] => pat.isPrefixOf []
  | c :: cs => pat.isPrefixOf (c :: cs) || containsL pat cs

/-- Case-insensitive substring test: `s.toLowerCase().includes(pat)` and the
regex test `/pat/i.test(s)` for a literal pattern. -/
def inclCI (s : String) (pat : String) : Bool :=
  containsL (lowerL pat.toList) (lowerL s.toList)

/-- Case-insensitive suffix test, embedding `/pat$/i.test(s)`. -/
def endCI (s : String) (pat : String) : Bool :=
  (lowerL pat.toList).isSuffixOf (lowerL s.toList)

/-- Remainder of `l` after the first occurrence of `pat`, or `none` when
`pat` does not occur.  Used to embed regexes of the shape `/a.*b/`. -/
def afterFirst (pat : List Char) : List Char → Option (List Char)
  | [] => if pat = [] then some [] else none
  | c :: cs =>
    if pat.isPrefixOf (c :: cs) then some ((c :: cs).drop pat.length)
    else afterFirst pat cs

/-- Embeds `/a.*(b₁|b₂|…)/i.test(s)`: an occurrence of `a` followed, at or
after its end, by an occurrence of one of the `bs`.  Searching from the
first occurrence of `a` is complete, because a later occurrence only
shrinks the remainder. -/
def seqCI (s : String) (a : String) (bs : List String) : Bool :=
  match afterFirst (lowerL a.toList) (lowerL s.toList) with
  | some rest => bs.any fun b => containsL (lowerL b.toList) rest
  | none => false

/-- Embeds JS `Set.add` on the insertion-ordered list embedding of a `Set`. -/
def addSet (l : List String) (x : String) : List String :=
  if x ∈ l then l else l ++ [x]

/-! ## URL parsing (embedding `new URL(...)` for absolute http/https URLs) -/

/-- The components of a parsed URL that the repository reads:
`origin` = scheme + host, `pathname`, and the raw query. -/
structure UrlParts where
  secure : Bool
  host : List Char
  path : List Char
  query : List Char
deriving DecidableEq, Repr

/-- Characters admitted in a host by the embedded parser.  `new URL`
would treat `:` as a port and `@` as userinfo delimiter; both are outside
the embedding, so such inputs fail to parse. -/
def hostCharOk (c : Char) : Bool := !(isWsChar c) && c ≠ ':' && c ≠ '@'

/-- Characters admitted in path and query: `new URL` percent-encodes
whitespace, which the embedding excludes instead. -/
def tailCharOk (c : Char) : Bool := !(isWsChar c)

/-- Parse the part after `scheme://`: host up to the first `/` or `?`,
then pathname up to the first `?`, then the query.  An absent path is
`/`, as in the WHATWG parser. -/
def parseAfterScheme (secure : Bool) (l : List Char) : Option UrlParts :=
  let host := l.takeWhile fun c => c ≠ '/' && c ≠ '?'
  let rest := l.drop host.length
  if host = [] then none
  else if !(host.all hostCharOk) then none
  else
    let path := rest.takeWhile fun c => c ≠ '?'
    let query := (rest.drop path.length).drop 1
    if (path ++ query).all tailCharOk then
      some ⟨secure, host, if path = [] then ['/'] else path, query⟩
    else none

/-- Embeds `new URL(s)` on a character list: the fragment is cut at the first
`#`, then the scheme decides `http`/`https` (anything else throws in the
places the repository calls the parser, modelled as `none`). -/
def parseUrlL (l : List Char) : Option UrlParts :=
  let l := l.takeWhile fun c => c ≠ '#'
  if "https://".toList.isPrefixOf l then parseAfterScheme true (l.drop 8)
  else if "http://".toList.isPrefixOf l then parseAfterScheme false (l.drop 7)
  else none

/-- Embeds `new URL(s)` on a string. -/
def parseUrl (s : String) : Option UrlParts := parseUrlL s.toList

/-- Embeds `url.protocol` without the trailing colon. -/
def UrlParts.schemeL (p : UrlParts) : List Char :=
  if p.secure then "https".toList else "http".toList

/-- Embeds `url.origin` (scheme://host; the embedding carries no port). -/
def UrlParts.originL (p : UrlParts) : List Char :=
  p.schemeL ++ "://".toList ++ p.host

/-- Embeds `url.search` as stored on parse: `?query` when the query is nonempty,
empty string otherwise. -/
def UrlParts.searchL (p : UrlParts) : List Char :=
  if p.query = [] then [] else '?' :: p.query

/-- Embeds `pathname.replace(/\/$/, '')`: drop exactly one trailing slash. -/
def stripSlash (l : List Char) : List Char :=
  if l.getLast? = some '/' then l.dropLast else l

/-! ## URLSearchParams -/

/-- The `URLSearchParams` pairs of a raw query: split on `&`, drop empty
pieces, split each piece at its first `=` (a missing `=` gives an empty
value, as in JS). -/
def parseParams (q : List Char) : List (List Char × List Char) :=
  (splitOnChar '&' q).filterMap fun piece =>
    if piece = [] then none
    else
      let name := piece.takeWhile fun c => c ≠ '='
      some (name, (piece.drop name.length).drop 1)

/-- Embeds `url.searchParams.has(name)`. -/
def paramsHas (q : List Char) (name : String) : Bool :=
  (parseParams q).any fun nv => nv.1 = name.toList

/-- Serialisation of `URLSearchParams` back into a query string, as read
from `url.search` after a mutation: `name=value` pairs joined by `&`. -/
def serializeParams : List (List Char × List Char) → List Char
  | [] => []
  | [nv] => nv.1 ++ '=' :: nv.2
  | nv :: rest => nv.1 ++ '=' :: nv.2 ++ '&' :: serializeParams rest

/-! ## urlUtils.js -/

/-- Embeds `isValidUrl` (src/urlUtils.js): parse and check the protocol
is http or https.  The embedded parser only produces those protocols, so
the protocol check is the membership test on the parsed scheme. -/
def isValidUrl (s : String) : Bool :=
  match parseUrl s with
  | some p => p.schemeL = "http".toList || p.schemeL = "https".toList
  | none => false

/-- The scheme-defaulting step of `normalizeUrl`: prepend `https://` when
the (already trimmed) input starts with neither `http://` nor `https://`. -/
def prependScheme (t : List Char) : List Char :=
  if "http://".toList.isPrefixOf t || "https://".toList.isPrefixOf t then t
  else "https://".toList ++ t

/-- Embeds `normalizeUrl` (src/urlUtils.js): trim, default the scheme,
parse, rebuild as `origin + pathname-minus-one-trailing-slash + search`,
validate, and return `none` (JS `null`) on any failure. -/
def normalizeUrl (s : String) : Option String :=
  let t := prependScheme (trimL s.toList)
  match parseUrlL t with
  | none => none
  | some p =>
    let n := String.mk (p.originL ++ stripSlash p.path ++ p.searchL)
    if isValidUrl n then some n else none

/-- Embeds `extractHostname` (src/urlUtils.js). -/
def extractHostname (s : String) : Option String :=
  (parseUrl s).map fun p => String.mk p.host

/-- The fixed tracking-parameter list of `cleanUrl` (src/urlUtils.js). -/
def cleanTrackingParams : List String :=
  ["utm_source", "utm_medium", "utm_campaign", "utm_term", "utm_content",
   "ref", "fbclid", "gclid", "pk_campaign", "pk_kwd", "zanpid", "origin"]

/-- Embeds `cleanUrl` (src/urlUtils.js): delete the tracking parameters
from `searchParams`, rebuild `origin + pathname-minus-one-trailing-slash
+ search` (the search being the re-serialised remaining parameters), and
return the input unchanged when parsing fails. -/
def cleanUrl (s : String) : String :=
  match parseUrl s with
  | none => s
  | some p =>
    let ps := (parseParams p.query).filter fun nv =>
      !(cleanTrackingParams.any fun t => nv.1 = t.toList)
    let q := serializeParams ps
    String.mk (p.originL ++ stripSlash p.path ++ (if q = [] then [] else '?' :: q))

/-! ## smartUrlFilter.js -/

/-- Filter options as consumed by `shouldVisitUrl`; `keywords` is `none`
when the caller left `options.keywords` undefined. -/
structure FilterOptions where
  keywords : Option (List String)
deriving Repr

/-- RULE 2 parameter list (language variants). -/
def languageParams : List String := ["hl", "lang", "locale", "l"]

/-- RULE 3 auth patterns over the raw URL string.  `/\/oauth$/i` is a
suffix test; the rest are substring tests ( `/\/_d\/signin/i` included,
though it is subsumed by `/signin`). -/
def isAuthUrl (url : String) : Bool :=
  inclCI url "/signin" || inclCI url "/login" || inclCI url "/register" ||
  inclCI url "/signup" || inclCI url "/logout" || inclCI url "/account" ||
  inclCI url "/profile" || inclCI url "/dashboard" || inclCI url "/admin" ||
  inclCI url "/_d/signin" || endCI url "/oauth" || inclCI url "/sso"

/-- RULE 3 exception: documentation about auth.  The alternations
`docs?|guides?|tutorials?|examples?` are existence-equivalent to their
shortest forms, since the optional `s` can be absorbed by the `.*`. -/
def isAuthDocumentation (url : String) : Bool :=
  seqCI url "/doc" ["auth"] || seqCI url "/guide" ["auth"] ||
  seqCI url "/tutorial" ["auth"] || seqCI url "/example" ["auth"] ||
  seqCI url "/auth" ["doc", "guide", "tutorial", "example"] ||
  inclCI url "/guide/auth/" || inclCI url "/guides/auth/"

/-- RULE 4: technical/system files, tested on the raw URL string. -/
def isTechnicalUrl (url : String) : Bool :=
  ([".css", ".js", ".json", ".xml", ".txt", ".pdf", ".zip", ".gz", ".tar",
    ".png", ".jpg", ".jpeg", ".gif", ".svg", ".ico"].any (endCI url ·)) ||
  (["/manifest.json", "/opensearch.xml", "/robots.txt", "/sitemap",
    "/favicon", "/_pwa/", "/sw.js", "/service-worker"].any (inclCI url ·))

/-- RULE 5: non-content pages.  `-?` alternations are expanded. -/
def isNonContentUrl (url : String) : Bool :=
  (["/newsletter", "/subscribe", "/unsubscribe", "/contact", "/about",
    "/privacy", "/terms", "/legal", "/cookies", "/404", "/error",
    "/maintenance", "/comingsoon", "/coming-soon", "/underconstruction",
    "/under-construction", "/placeholder", "/branding", "/press", "/media",
    "/careers", "/jobs", "/investor"].any (inclCI url ·)) ||
  (["/support", "/help", "/faq", "/search", "/demo", "/example", "/test",
    "/playground", "/blog", "/news"].any (endCI url ·))

/-- RULE 7: tracking/analytics/social URLs. -/
def isTrackingUrl (url : String) : Bool :=
  ["/analytics", "/tracking", "/metrics", "/telemetry", "/events",
   "/pixel", "/beacon", "/gtm", "/ga/", "/facebook", "/twitter",
   "/linkedin", "/social", "/share", "/embed"].any (inclCI url ·)

/-- RULE 8 tracking-parameter list. -/
def trackingParamsR8 : List String :=
  ["utm_source", "utm_medium", "utm_campaign", "utm_term", "utm_content",
   "fbclid", "gclid", "msclkid", "igshid",
   "ref", "referrer", "source", "campaign",
   "tracking", "track", "campaign_id",
   "affiliate", "partner", "promo",
   "session", "sid", "token", "key",
   "timestamp", "cache", "version", "v",
   "continue", "redirect", "return", "next",
   "prompt", "force", "reload"]

/-- RULE 9: non-documentation resources; `s?` alternations expanded. -/
def isNonDocResource (url : String) : Bool :=
  ["/extras.css", "/globals.css", "/style/", "/styles/", "/asset/",
   "/assets/", "/image/", "/images/", "/img/", "/static/", "/public/",
   "/upload/", "/uploads/", "/download/", "/downloads/", "/file/",
   "/files/", "/media/", "/resource/", "/resources/", "/font/", "/fonts/",
   "/icon/", "/icons/", "/theme/", "/themes/", "/template/", "/templates/",
   "/widget/", "/widgets/", "/plugin/", "/plugins/", "/module/",
   "/modules/", "/component/", "/components/", "/partial/", "/partials/",
   "/include/", "/includes/", "/vendor/", "/node_modules/",
   "/bower_components/", "/package/", "/packages/", "/lib/", "/libs/",
   "/dependencies/", "/third_party/", "/third-party/",
   "/external/"].any (inclCI url ·)

/-- RULE 10 view/display parameter list. -/
def viewParams : List String :=
  ["sort", "order", "view", "display", "layout",
   "page", "per_page", "limit", "offset",
   "filter", "category", "tag", "type",
   "format", "theme", "skin", "mode"]

/-- RULE 11, the keyword gate: passes when no keyword list is configured
or the list is empty; otherwise passes iff some keyword occurs in the
lowercased raw URL. -/
def keywordGate (kw : Option (List String)) (url : String) : Bool :=
  match kw with
  | none => true
  | some ks => if 0 < ks.length then ks.any (fun k => inclCI url k) else true

/-- RULE 12: documentation-like URLs; `s?`, `[_-]?` alternations expanded. -/
def isDocumentationUrl (url : String) : Bool :=
  ["/doc/", "/docs/", "/documentation", "/guide/", "/guides/",
   "/tutorial/", "/tutorials/", "/example/", "/examples/", "/sample/",
   "/samples/", "/reference", "/api/", "/sdk/", "/dev/", "/developer",
   "/manual", "/handbook", "/wiki", "/knowledge", "/learn", "/training",
   "/course", "/tutorial", "/howto", "/how_to", "/how-to",
   "/gettingstarted", "/getting_started", "/getting-started",
   "/quickstart", "/quick_start", "/quick-start", "/setup",
   "/installation", "/config", "/implementation", "/integration",
   "/usage", "/best_practices", "/best-practices", "/guidelines",
   "/standards", "/conventions", "/specification", "/spec", "/readme",
   "/changelog", "/releasenotes", "/release_notes", "/release-notes",
   "/migration", "/upgrade", "/troubleshoot", "/faq", "/help/",
   "/support/", "/guide/auth/", "/guides/auth/"].any (inclCI url ·)

/-- RULE 13: content-rich URLs.  Note `stories?` is literally
`storie` + optional `s`, and `case[_-]?studies?` is `case` + optional
separator + `studie` + optional `s`, as in the source regexes. -/
def isContentUrl (url : String) : Bool :=
  ["/article/", "/articles/", "/post/", "/posts/", "/blog/", "/news/",
   "/announcement/", "/announcements/", "/update/", "/updates/",
   "/release/", "/releases/", "/feature/", "/features/", "/product/",
   "/products/", "/service/", "/services/", "/solution/", "/solutions/",
   "/casestudie/", "/casestudies/", "/case_studie/", "/case_studies/",
   "/case-studie/", "/case-studies/", "/storie/", "/stories/",
   "/insight/", "/insights/", "/research/", "/paper/", "/papers/",
   "/report/", "/reports/", "/whitepaper/", "/whitepapers/", "/ebook/",
   "/ebooks/", "/presentation/", "/presentations/", "/webinar/",
   "/webinars/", "/video/", "/videos/", "/podcast/", "/podcasts/",
   "/recording/", "/recordings/", "/demo/", "/demos/", "/sample/",
   "/samples/"].any (inclCI url ·)

/-- A character of the class `[a-z0-9-]` under the `i` flag. -/
def segChar (c : Char) : Bool := c.isAlphanum || c = '-'

/-- RULE 15: main-content shapes, tested on `urlObj.pathname`. -/
def isMainContentPath (path : List Char) : Bool :=
  (match splitOnChar '/' path with
   | [[], s] => !s.isEmpty && s.all segChar
   | [[], s, t] => !s.isEmpty && s.all segChar && !t.isEmpty && t.all segChar
   | _ => false) ||
  (["/index", "/home", "/main", "/overview", "/introduction", "/intro",
    "/summary", "/details", "/info"].any fun pat =>
      (lowerL pat.toList).isSuffixOf (lowerL path)) ||
  containsL (lowerL "/about/".toList) (lowerL path)

/-- Embeds `pathname.split('/').filter(part => part.length > 0).length`. -/
def pathPartsLen (path : List Char) : Nat :=
  ((splitOnChar '/' path).filter fun part => !part.isEmpty).length

/-- The rule cascade RULE 1–17 of `shouldVisitUrl`
(src/smartUrlFilter.js), after both URLs parsed successfully. -/
def shouldVisitParsedUrl (url : String) (options : FilterOptions)
    (urlObj baseUrlObj : UrlParts) : Bool :=
  if urlObj.host ≠ baseUrlObj.host then false
  else if languageParams.any (paramsHas urlObj.query ·) then false
  else if isAuthUrl url && !isAuthDocumentation url then false
  else if isTechnicalUrl url then false
  else if isNonContentUrl url then false
  else if 5 < (parseParams urlObj.query).length then false
  else if isTrackingUrl url then false
  else if trackingParamsR8.any (paramsHas urlObj.query ·) then false
  else if isNonDocResource url then false
  else if viewParams.any (paramsHas urlObj.query ·) then false
  else if !keywordGate options.keywords url then false
  else if isDocumentationUrl url then true
  else if isContentUrl url then true
  else if pathPartsLen urlObj.path ≤ 3 && urlObj.query = [] then true
  else if isMainContentPath urlObj.path then true
  else if url.length < 200 && pathPartsLen urlObj.path ≤ 5 then true
  else false

/-- Embeds `shouldVisitUrl` (src/smartUrlFilter.js) for string inputs:
input validation, `new URL` on both arguments — a parse failure of
either gives `false` (the catch clause) — then the rule cascade.  Total
by construction; the JS version never throws to its caller. -/
def shouldVisitUrl (url baseUrl : String) (options : FilterOptions) : Bool :=
  if trimL url.toList = [] then false
  else if trimL baseUrl.toList = [] then false
  else
    match parseUrl url, parseUrl baseUrl with
    | some urlObj, some baseUrlObj =>
      shouldVisitParsedUrl url options urlObj baseUrlObj
    | _, _ => false

/-- A JavaScript argument as passed to `shouldVisitUrl`: a string or any
non-string value (the `typeof` guards only distinguish these two). -/
inductive JsVal where
  | str (s : String)
  | nonString
deriving Repr

/-- Embeds `shouldVisitUrl` including the `typeof` input validation on dynamic
arguments (src/smartUrlFilter.js lines 29–37). -/
def shouldVisitUrlJs (url baseUrl : JsVal) (options : FilterOptions) : Bool :=
  match url, baseUrl with
  | .str u, .str b => shouldVisitUrl u b options
  | _, _ => false

/-! ## processUrls.js -/

/-- Embeds `path.extname(s).toLowerCase()` as applied to a URL string: the
extension of the substring after the last `/`, empty when there is no
dot or the only dot starts the basename. -/
def extnameLower (s : String) : List Char :=
  let base := (splitOnChar '/' s.toList).getLastD []
  let revAfter := base.reverse.takeWhile fun c => c ≠ '.'
  if revAfter.length + 1 < base.length then lowerL ('.' :: revAfter.reverse) else []

/-- The `EXTENSIONS_TO_AVOID` list from src/config.js after the leading-dot
normalisation in src/processUrls.js (note the source list's `',mp3'` and
`'zip'` entries become `'.,mp3'` and `'.zip'`). -/
def normalizedExtensionsToAvoid : List (List Char) :=
  [".css", ".jpeg", ".jpg", ".png", ".js", ".gif", ".svg",
   ".xml", ".json", ".,mp3", ".mp4",
   ".zip", ".rar", ".tar", ".gz", ".mov", ".its"].map String.toList

/-- The `nonHtmlPatterns` checks of `processUrl` on the cleaned URL. -/
def isNonHtmlUrl (u : String) : Bool :=
  endCI u "/manifest.json" || endCI u "/opensearch.xml" ||
  endCI u "/robots.txt" || inclCI u "/sitemap" || inclCI u "/favicon" ||
  ([".css", ".js", ".json", ".xml", ".txt", ".pdf", ".zip", ".gz", ".tar",
    ".png", ".jpg", ".jpeg", ".gif", ".svg", ".ico"].any (endCI u ·)) ||
  inclCI u "/api/" || endCI u "/feed" || endCI u "/rss"

/-- Embeds the pure core of `processUrl` (src/processUrls.js): the
already-visited short-circuits, normalisation, cleaning, hostname
checks, the extension and non-HTML guards, then the render step.  The
third component records the `page.goto` invocation: `none` when no
navigation happened (a guard short-circuited), and `some (cleanedUrl,
flag)` when `page.goto cleanedUrl` ran.  `flag = false` is a failed
navigation — the no-response / status ≥ 400 / empty-content returns at
src/processUrls.js lines 192-211 and the catch at lines 260-273, all
of which exit before the `visitedUrls.add(cleanedUrl)` at line 217, so
the visited set is unchanged and no links are discovered.  `flag =
true` is a load that reaches line 217: the cleaned URL joins the
visited set and the extracted links are filtered (normalised, same
hostname as the base, not yet visited); the oracle answers `some
pageLinks` for such a load (`some []` also covers the invalid-title and
no-links outcomes, which differ only in returning no links after the
visited mark). -/
def processUrl (render : String → Option (List String)) (baseUrl : String)
    (visited : List String) (url : String) :
    List String × List String × Option (String × Bool) :=
  if url ∈ visited then (visited, [], none)
  else
    match normalizeUrl url with
    | none => (visited, [], none)
    | some normalizedUrl =>
      let cleanedUrl := cleanUrl normalizedUrl
      match extractHostname normalizedUrl, extractHostname baseUrl with
      | some _, some baseHostname =>
        if cleanedUrl ∈ visited then (visited, [], none)
        else if extnameLower cleanedUrl ∈ normalizedExtensionsToAvoid then
          (visited, [], none)
        else if isNonHtmlUrl cleanedUrl then (visited, [], none)
        else
          match render cleanedUrl with
          | none => (visited, [], some (cleanedUrl, false))
          | some pageLinks =>
            let visited1 := addSet visited cleanedUrl
            let filteredLinks :=
              (pageLinks.filterMap normalizeUrl).filter fun link =>
                let cleanedLink := cleanUrl link
                decide (extractHostname cleanedLink = some baseHostname) &&
                  !decide (cleanedLink ∈ visited1)
            (visited1, filteredLinks, some (cleanedUrl, true))
      | _, _ => (visited, [], none)

/-! ## crawlWebsite.js -/

/-- The scheduler state: the frontier queue of `{url, depth}` entries,
the Unique and Visited sets, plus three observation traces — `rendered`
records each `page.goto` invocation as (cleaned URL, dispatch depth),
`loaded` records the cleaned URL of each navigation that reached the
`visitedUrls.add(cleanedUrl)` mark (processUrls.js line 217), and
`saves` records the visited-set size at each persistence snapshot. -/
structure CrawlState where
  queue : List (String × Nat)
  uniq : List String
  visited : List String
  rendered : List (String × Nat)
  loaded : List String
  saves : List Nat
deriving DecidableEq, Repr

/-- The per-run constants of the dispatch loop: the render oracle, the
effective base URL (`FINAL_OPTIONS.baseUrl || startUrl`), keywords,
`maxDepth`, and whether persistence is configured
(`FINAL_OPTIONS.urlPersistence && FINAL_OPTIONS.hostname`). -/
structure CrawlParams where
  render : String → Option (List String)
  baseUrl : String
  keywords : List String
  maxDepth : Nat
  persist : Bool

/-- The `discoveredLinks.forEach` body of the completion callback:
admit a link iff it is not yet in Unique and `depth + 1 ≤ maxDepth` and
the smart filter accepts it; admitted links join Unique and are pushed
at `depth + 1`. -/
def admitLinks (P : CrawlParams) (depth : Nat) (uniq : List String)
    (queue : List (String × Nat)) : List String → List String × List (String × Nat)
  | [] => (uniq, queue)
  | link :: rest =>
    if link ∉ uniq ∧ depth + 1 ≤ P.maxDepth then
      if shouldVisitUrl link P.baseUrl ⟨some P.keywords⟩ then
        admitLinks P depth (uniq ++ [link]) (queue ++ [(link, depth + 1)]) rest
      else admitLinks P depth uniq queue rest
    else admitLinks P depth uniq queue rest

/-- The entry the render trace gains from one dispatch: the cleaned URL
passed to `page.goto` tagged with the dispatch depth, whenever a
navigation was invoked (loaded or failed). -/
def renderTrace (r : Option (String × Bool)) (depth : Nat) : List (String × Nat) :=
  match r with
  | some c => [(c.1, depth)]
  | none => []

/-- The entry the load trace gains from one dispatch: the cleaned URL,
only when the navigation reached the visited mark at processUrls.js
line 217 (the load flag is set). -/
def loadTrace (r : Option (String × Bool)) : List String :=
  match r with
  | some c => if c.2 then [c.1] else []
  | none => []

/-- One dispatch of the inner loop together with its completion
callback: skip if visited; reject-and-mark-visited if the smart filter
refuses; otherwise run `processUrl`, enqueue the admitted discoveries,
mark the URL visited, and snapshot when persistence is configured and
the visited size is divisible by 10. -/
def dispatchOne (P : CrawlParams) (st : CrawlState) (url : String)
    (depth : Nat) (rest : List (String × Nat)) : CrawlState :=
  if url ∈ st.visited then { st with queue := rest }
  else if !shouldVisitUrl url P.baseUrl ⟨some P.keywords⟩ then
    { st with queue := rest, visited := addSet st.visited url }
  else
    let r := processUrl P.render P.baseUrl st.visited url
    let uq := admitLinks P depth st.uniq rest r.2.1
    let visited2 := addSet r.1 url
    { queue := uq.2
      uniq := uq.1
      visited := visited2
      rendered := st.rendered ++ renderTrace r.2.2 depth
      loaded := st.loaded ++ loadTrace r.2.2
      saves := if P.persist ∧ visited2.length % 10 = 0 then
                 st.saves ++ [visited2.length]
               else st.saves }

/-- The main crawling loop, embedded sequentially (one dispatch runs to
completion before the next pop; coincides with `maxConcurrent = 1`).
Fuel bounds the number of dispatch cycles; `none` means the fuel ran
out, and termination is proved separately. -/
def crawlLoop (P : CrawlParams) : Nat → CrawlState → Option CrawlState
  | 0, st => match st.queue with | [] => some st | _ => none
  | fuel + 1, st =>
    match st.queue with
    | [] => some st
    | (url, depth) :: rest => crawlLoop P fuel (dispatchOne P st url depth rest)

/-- The options record accepted by `crawlWebsite` (fields the embedding
observes; `none` models an absent field). -/
structure CrawlOptions where
  maxDepth : Nat
  keywords : List String
  baseUrl : Option String
  uniqueUrls : Option (List String)
  visitedUrls : Option (List String)
  persist : Bool

/-- The initial scheduler state of `crawlWebsite`: Unique/Visited seeded
from the options (continuation) or empty, the normalised start URL added
to Unique, the queue holding the start URL at depth 0 followed by every
unvisited member of Unique other than the start URL at depth 1 (the
continuation fix).  An unparseable start URL adds nothing to Unique
(the JS version would add `null`, which never affects the string
members the claims are about). -/
def initState (startUrl : String) (opts : CrawlOptions) : CrawlState :=
  let uniq0 := opts.uniqueUrls.getD []
  let visited0 := opts.visitedUrls.getD []
  let uniq1 := match normalizeUrl startUrl with
    | some n => addSet uniq0 n
    | none => uniq0
  let unvisitedUrls := uniq1.filter fun u => decide (u ∉ visited0)
  let contEntries := (unvisitedUrls.filter fun u => decide (u ≠ startUrl)).map
    fun u => (u, 1)
  ⟨(startUrl, 0) :: contEntries, uniq1, visited0, [], [], []⟩

/-- The per-run constants derived from the options. -/
def crawlParams (render : String → Option (List String)) (startUrl : String)
    (opts : CrawlOptions) : CrawlParams :=
  ⟨render, opts.baseUrl.getD startUrl, opts.keywords, opts.maxDepth, opts.persist⟩

/-- The final persistence save at crawl completion (inside try/catch in
the source; the attempt is recorded whenever persistence is configured). -/
def finalSave (persist : Bool) (st : CrawlState) : CrawlState :=
  if persist then { st with saves := st.saves ++ [st.visited.length] } else st

/-- Embeds `crawlWebsite` (src/crawlWebsite.js): continuation setup, the
fuelled dispatch loop, and the final save.  The resulting `CrawlState`
carries the returned `{uniqueUrls, visitedUrls}`. -/
def crawlWebsite (render : String → Option (List String)) (startUrl : String)
    (opts : CrawlOptions) (fuel : Nat) : Option CrawlState :=
  (crawlLoop (crawlParams render startUrl opts) fuel (initState startUrl opts)).map
    (finalSave opts.persist)

/-! ## Reference-level wrapper (object identity of the URL sets)

`crawlWebsite` receives its Unique/Visited sets by reference and mutates
them in place; to state that, JS `Set` objects are given identities in a
store, and the crawl is the net effect on the store.  -/

/-- A store of `Set` objects: reference `r` denotes `sets[r]`. -/
structure SetStore where
  sets : List (List String)
deriving DecidableEq, Repr

/-- Dereference a `Set`. -/
def readSet (h : SetStore) (r : Nat) : List String := h.sets.getD r []

/-- Mutate the `Set` object behind reference `r` in place. -/
def writeSet (h : SetStore) (r : Nat) (v : List String) : SetStore :=
  ⟨h.sets.set r v⟩

/-- Embeds `new Set()`: allocate a fresh empty set, returning its reference. -/
def allocSet (h : SetStore) : SetStore × Nat := (⟨h.sets ++ [[]]⟩, h.sets.length)

/-- Options of `crawlWebsite` at the reference level: `uniqueUrls` and
`visitedUrls` are references to caller-owned `Set` objects. -/
structure CrawlOptionsRef where
  maxDepth : Nat
  keywords : List String
  baseUrl : Option String
  uniqueUrls : Option Nat
  visitedUrls : Option Nat
  persist : Bool

/-- Reference-level `crawlWebsite`: use the caller's set objects when
provided (else allocate fresh ones), run the crawl on their contents,
store the final contents back into those same objects, and return the
references of the returned `{uniqueUrls, visitedUrls}`. -/
def crawlWebsiteRef (render : String → Option (List String)) (startUrl : String)
    (opts : CrawlOptionsRef) (h : SetStore) (fuel : Nat) :
    Option (SetStore × Nat × Nat) :=
  let au := match opts.uniqueUrls with | some r => (h, r) | none => allocSet h
  let av := match opts.visitedUrls with | some r => (au.1, r) | none => allocSet au.1
  let vopts : CrawlOptions :=
    ⟨opts.maxDepth, opts.keywords, opts.baseUrl,
     some (readSet av.1 au.2), some (readSet av.1 av.2), opts.persist⟩
  match crawlWebsite render startUrl vopts fuel with
  | none => none
  | some fin => some (writeSet (writeSet av.1 au.2 fin.uniq) av.2 fin.visited, au.2, av.2)

/-! ## Proof-device definitions -/

/-- The list rendered by `normalizeUrl` from parsed parts (its `n`). -/
def normRender (p : UrlParts) : List Char :=
  p.originL ++ stripSlash p.path ++ p.searchL

/-- Well-formedness of parsed URL parts, as guaranteed by `parseUrlL`:
a nonempty host of host characters free of `/`, `?`, `#`; a path that is
`/` or starts with `/`, free of whitespace, `?` and `#`; a query free of
whitespace and `#`. -/
def UrlWF (p : UrlParts) : Prop :=
  p.host ≠ [] ∧ p.host.all hostCharOk = true ∧
  (∀ c ∈ p.host, c ≠ '/' ∧ c ≠ '?' ∧ c ≠ '#') ∧
  (p.path = ['/'] ∨ p.path.head? = some '/') ∧
  (∀ c ∈ p.path, tailCharOk c = true ∧ c ≠ '?' ∧ c ≠ '#') ∧
  (∀ c ∈ p.query, tailCharOk c = true ∧ c ≠ '#')

/-- The page a dispatched URL would render: its normalised-then-cleaned
form (what `processUrl` passes to `page.goto` and the links oracle). -/
def cleanedTarget (u : String) : String :=
  match normalizeUrl u with
  | some n => cleanUrl n
  | none => ""

/-- Weight of a frontier entry: an upper bound on the number of dispatch
cycles the entry can still cause.  Entries at depth `≥ maxDepth` cannot
enqueue children. -/
def urlWeight (L : String → Option (List String)) (maxDepth : Nat)
    (u : String) (d : Nat) : Nat :=
  if maxDepth ≤ d then 1
  else 1 + ((((L (cleanedTarget u)).getD []).filterMap normalizeUrl).map
    fun l => urlWeight L maxDepth l (d + 1)).sum
termination_by maxDepth - d
decreasing_by omega

/-- Total weight of the frontier queue, the termination measure of the
dispatch loop. -/
def queueWeight (L : String → Option (List String)) (maxDepth : Nat)
    (q : List (String × Nat)) : Nat :=
  (q.map fun e => urlWeight L maxDepth e.1 e.2).sum

/-- The loop invariant behind the at-most-once guarantees: Visited holds
no duplicate string, no cleaned URL is successfully loaded twice, and
every loaded URL is in Visited.  The render trace is deliberately
absent: a failed navigation leaves the cleaned URL out of Visited, so
the same cleaned URL can be rendered again. -/
def crawlInv (st : CrawlState) : Prop :=
  st.visited.Nodup ∧ st.loaded.Nodup ∧
  ∀ c ∈ st.loaded, c ∈ st.visited

/-! ## Generic list lemmas -/

theorem takeWhile_append_of_all {p : Char → Bool} :
    ∀ {a b : List Char}, (∀ c ∈ a, p c = true) → (a ++ b).takeWhile p = a ++ b.takeWhile p := by
  intro a
  induction a with
  | nil => intro b _; simp
  | cons c t ih =>
    intro b h
    have hc := h c (List.mem_cons_self c t)
    simp only [List.cons_append, List.takeWhile_cons, hc, if_true]
    exact congrArg (c :: ·) (ih fun x hx => h x (List.mem_cons_of_mem c hx))

theorem takeWhile_nil_of_head {p : Char → Bool} {c : Char} {t : List Char}
    (h : p c = false) : (c :: t).takeWhile p = [] := by
  rw [List.takeWhile_cons, h]; simp

theorem takeWhile_eq_self_of_all {p : Char → Bool} :
    ∀ {l : List Char}, (∀ c ∈ l, p c = true) → l.takeWhile p = l := by
  intro l
  induction l with
  | nil => intro _; rfl
  | cons c t ih =>
    intro h
    have hc := h c (List.mem_cons_self c t)
    simp only [List.takeWhile_cons, hc, if_true]
    exact congrArg (c :: ·) (ih fun x hx => h x (List.mem_cons_of_mem c hx))

theorem dropWhile_eq_self_of_all {p : Char → Bool} {l : List Char}
    (h : ∀ c ∈ l, p c = false) : l.dropWhile p = l := by
  cases l with
  | nil => rfl
  | cons c t => rw [List.dropWhile_cons, h c (List.mem_cons_self c t)]; simp

theorem trimL_eq_self {l : List Char} (h : ∀ c ∈ l, isWsChar c = false) : trimL l = l := by
  unfold trimL
  rw [dropWhile_eq_self_of_all h,
    dropWhile_eq_self_of_all fun c hc => h c (List.mem_reverse.mp hc),
    List.reverse_reverse]

theorem isPrefixOf_append_self : ∀ (a b : List Char), a.isPrefixOf (a ++ b) = true := by
  intro a b
  induction a with
  | nil => simp [List.isPrefixOf]
  | cons c t ih => simp [List.cons_append, List.isPrefixOf, ih]

theorem https_not_prefixOf_http (rest : List Char) :
    "https://".toList.isPrefixOf ("http://".toList ++ rest) = false := by
  have h1 : "https://".toList = ['h', 't', 't', 'p', 's', ':', '/', '/'] := by decide
  have h2 : "http://".toList = ['h', 't', 't', 'p', ':', '/', '/'] := by decide
  rw [h1, h2]
  simp [List.isPrefixOf, List.cons_append]

theorem nodup_concat {α : Type} {x : α} {l : List α} (h : x ∉ l) (h2 : l.Nodup) :
    (l ++ [x]).Nodup := by
  simp only [List.nodup_append, List.nodup_cons, List.not_mem_nil, not_false_iff,
    List.nodup_nil, true_and, and_true, List.Disjoint]
  refine ⟨h2, ?_⟩
  intro a ha hax
  simp only [List.mem_singleton] at hax
  exact h (hax ▸ ha)

theorem sum_map_le_of_sublist {α : Type} {l₁ l₂ : List α} (f : α → Nat)
    (h : List.Sublist l₁ l₂) : (l₁.map f).sum ≤ (l₂.map f).sum := by
  induction h with
  | slnil => exact le_refl _
  | cons a h ih => simp only [List.map_cons, List.sum_cons]; omega
  | cons₂ a h ih => simp only [List.map_cons, List.sum_cons]; omega

/-! ## addSet lemmas -/

theorem mem_addSet_self (l : List String) (x : String) : x ∈ addSet l x := by
  unfold addSet
  split
  · assumption
  · exact List.mem_append_right l (List.mem_singleton.mpr rfl)

theorem mem_addSet_of_mem {l : List String} {x y : String} (h : y ∈ l) : y ∈ addSet l x := by
  unfold addSet
  split
  · exact h
  · exact List.mem_append_left _ h

theorem mem_addSet_iff {l : List String} {x y : String} :
    y ∈ addSet l x ↔ y ∈ l ∨ y = x := by
  unfold addSet
  split
  · exact ⟨Or.inl, fun h => h.elim id fun he => he ▸ (by assumption)⟩
  · simp [List.mem_append]

theorem addSet_nodup {l : List String} {x : String} (h : l.Nodup) : (addSet l x).Nodup := by
  unfold addSet
  split
  · exact h
  · exact nodup_concat (by assumption) h

/-! ## Parser structure lemmas -/

theorem drop_takeWhile (p : Char → Bool) (l : List Char) :
    l.drop (l.takeWhile p).length = l.dropWhile p := by
  have h := List.takeWhile_append_dropWhile p l
  nth_rewrite 2 [← h]
  exact List.drop_left _ _

theorem dropWhile_head_false {p : Char → Bool} :
    ∀ {l : List Char} {c : Char} {t : List Char}, l.dropWhile p = c :: t → p c = false := by
  intro l
  induction l with
  | nil => intro c t h; cases h
  | cons a l' ih =>
    intro c t
    rw [List.dropWhile_cons]
    split
    · exact ih
    · intro h; cases h; simp_all

theorem takeWhile_cons_inv {p : Char → Bool} {l : List Char} {c : Char}
    {t : List Char} (h : l.takeWhile p = c :: t) :
    l.head? = some c ∧ p c = true := by
  cases l with
  | nil => cases h
  | cons a l' =>
    rw [List.takeWhile_cons] at h
    split at h
    · cases h; simp_all
    · cases h

theorem mem_of_mem_takeWhile {p : Char → Bool} {l : List Char} {c : Char}
    (h : c ∈ l.takeWhile p) : c ∈ l := by
  rw [← List.takeWhile_append_dropWhile p l]
  exact List.mem_append_left _ h

theorem stripSlash_subset {l : List Char} {c : Char} (h : c ∈ stripSlash l) : c ∈ l := by
  unfold stripSlash at h
  split at h
  · exact List.dropLast_subset l h
  · exact h

theorem stripSlash_fix {l : List Char} (h : ¬ l.getLast? = some '/') : stripSlash l = l := by
  unfold stripSlash
  rw [if_neg h]

theorem stripSlash_shape {l : List Char} (h : l = ['/'] ∨ l.head? = some '/') :
    stripSlash l = [] ∨ (stripSlash l).head? = some '/' := by
  rcases h with h | h
  · subst h; left; decide
  · cases l with
    | nil => cases h
    | cons a t =>
      simp only [List.head?_cons, Option.some.injEq] at h
      subst h
      unfold stripSlash
      split
      · cases t with
        | nil => left; rfl
        | cons b t2 => right; simp [List.dropLast]
      · right; rfl

theorem parseAfterScheme_wf {b : Bool} {l : List Char} {p : UrlParts}
    (hnh : ∀ c ∈ l, c ≠ '#') (h : parseAfterScheme b l = some p) : UrlWF p := by
  simp only [parseAfterScheme] at h
  set host := l.takeWhile (fun c => c ≠ '/' && c ≠ '?') with hhosteq
  set rest := l.drop host.length with hresteq
  set path := rest.takeWhile (fun c => c ≠ '?') with hpatheq
  set query := (rest.drop path.length).drop 1 with hqueryeq
  split at h
  · simp at h
  split at h
  · simp at h
  split at h
  case _ hne hall htail =>
    cases h
    have hhostmem : ∀ c ∈ host, c ≠ '/' ∧ c ≠ '?' ∧ c ≠ '#' := by
      intro c hc
      have hpred := List.mem_takeWhile_imp (hhosteq ▸ hc)
      simp only [Bool.and_eq_true, decide_eq_true_eq] at hpred
      have hcl : c ∈ l := mem_of_mem_takeWhile (hhosteq ▸ hc)
      exact ⟨hpred.1, hpred.2, hnh c hcl⟩
    have hrestl : ∀ c ∈ rest, c ∈ l := fun c hc => List.mem_of_mem_drop (hresteq ▸ hc)
    have hpathl : ∀ c ∈ path, c ∈ l := fun c hc =>
      hrestl c (mem_of_mem_takeWhile (hpatheq ▸ hc))
    have hqueryl : ∀ c ∈ query, c ∈ l := fun c hc =>
      hrestl c (List.mem_of_mem_drop (List.mem_of_mem_drop (hqueryeq ▸ hc)))
    have htail' := List.all_eq_true.mp htail
    refine ⟨hne, ?_, hhostmem, ?_, ?_, ?_⟩
    · simpa using hall
    · by_cases hp : path = []
      · left; simp [hp]
      · right
        simp only [if_neg hp]
        obtain ⟨c, t, hct⟩ := List.exists_cons_of_ne_nil hp
        have hhead := takeWhile_cons_inv (hpatheq ▸ hct)
        have hrestceq : rest = l.dropWhile (fun c => c ≠ '/' && c ≠ '?') := by
          rw [hresteq, hhosteq, drop_takeWhile]
        obtain ⟨d, t2, hdt⟩ : ∃ d t2, rest = d :: t2 := by
          cases hr : rest with
          | nil => rw [hr] at hhead; cases hhead.1
          | cons d t2 => exact ⟨d, t2, rfl⟩
        have hdc : d = c := by
          rw [hdt] at hhead
          simpa using hhead.1
        have hfail := dropWhile_head_false (hrestceq ▸ hdt)
        have hcq : c ≠ '?' := by simpa using hhead.2
        subst hdc
        have hds : d = '/' := by
          by_contra hd
          simp [hd, hcq] at hfail
        rw [hct, hds]
        rfl
    · intro c hc
      by_cases hp : path = []
      · rw [if_pos hp] at hc
        simp only [List.mem_singleton] at hc
        subst hc
        exact ⟨by decide, by decide, by decide⟩
      · rw [if_neg hp] at hc
        refine ⟨htail' c (List.mem_append_left _ hc), ?_, hnh c (hpathl c hc)⟩
        have := List.mem_takeWhile_imp (hpatheq ▸ hc)
        simpa using this
    · intro c hc
      exact ⟨htail' c (List.mem_append_right _ hc), hnh c (hqueryl c hc)⟩
  · simp at h

theorem parseUrlL_wf {l : List Char} {p : UrlParts} (h : parseUrlL l = some p) :
    UrlWF p := by
  simp only [parseUrlL] at h
  set l' := l.takeWhile (fun c => c ≠ '#') with hl'
  have hnh : ∀ c ∈ l', c ≠ '#' := by
    intro c hc
    have := List.mem_takeWhile_imp (hl' ▸ hc)
    simpa using this
  split at h
  · exact parseAfterScheme_wf (fun c hc => hnh c (List.mem_of_mem_drop hc)) h
  split at h
  · exact parseAfterScheme_wf (fun c hc => hnh c (List.mem_of_mem_drop hc)) h
  · simp at h

theorem normRender_split (p : UrlParts) :
    normRender p = (if p.secure then "https://".toList else "http://".toList) ++
      (p.host ++ (stripSlash p.path ++ p.searchL)) := by
  unfold normRender UrlParts.originL UrlParts.schemeL
  cases p.secure
  · simp only [if_false, Bool.false_eq_true]
    rw [show "http://".toList = "http".toList ++ "://".toList from by decide]
    simp [List.append_assoc]
  · simp only [if_true]
    rw [show "https://".toList = "https".toList ++ "://".toList from by decide]
    simp [List.append_assoc]

theorem searchL_takeWhile_nil (p : UrlParts) :
    p.searchL.takeWhile (fun c => c ≠ '?') = [] := by
  unfold UrlParts.searchL
  split
  · rfl
  · exact takeWhile_nil_of_head (by decide)

theorem searchL_drop_one (p : UrlParts) : p.searchL.drop 1 = p.query := by
  unfold UrlParts.searchL
  split
  · simp [*]
  · rfl

theorem parseAfterScheme_render {p : UrlParts} (wf : UrlWF p) (b : Bool) :
    parseAfterScheme b (p.host ++ (stripSlash p.path ++ p.searchL)) =
      some ⟨b, p.host,
        (if stripSlash p.path = [] then ['/'] else stripSlash p.path), p.query⟩ := by
  obtain ⟨h1, h2, h3, h4, h5, h6⟩ := wf
  have hX0 : (stripSlash p.path ++ p.searchL).takeWhile
      (fun c => c ≠ '/' && c ≠ '?') = [] := by
    rcases stripSlash_shape h4 with hsp | hsp
    · rw [hsp, List.nil_append]
      unfold UrlParts.searchL
      split
      · rfl
      · exact takeWhile_nil_of_head (by decide)
    · obtain ⟨c, t, hct⟩ : ∃ c t, stripSlash p.path = c :: t := by
        cases hsp2 : stripSlash p.path with
        | nil => rw [hsp2] at hsp; cases hsp
        | cons c t => exact ⟨c, t, rfl⟩
      rw [hct] at hsp ⊢
      simp only [List.head?_cons, Option.some.injEq] at hsp
      subst hsp
      rw [List.cons_append]
      exact takeWhile_nil_of_head (by decide)
  have hhost : (p.host ++ (stripSlash p.path ++ p.searchL)).takeWhile
      (fun c => c ≠ '/' && c ≠ '?') = p.host := by
    rw [takeWhile_append_of_all (fun c hc => ?_), hX0, List.append_nil]
    have h := h3 c hc
    simp [h.1, h.2.1]
  have hpathtw : (stripSlash p.path ++ p.searchL).takeWhile (fun c => c ≠ '?') =
      stripSlash p.path := by
    rw [takeWhile_append_of_all (fun c hc => ?_), searchL_takeWhile_nil,
      List.append_nil]
    have h := h5 c (stripSlash_subset hc)
    simp [h.2.1]
  simp only [parseAfterScheme]
  rw [hhost, List.drop_left, hpathtw, List.drop_left, searchL_drop_one,
    if_neg h1]
  have hall2 : (!p.host.all hostCharOk) = false := by rw [h2]; rfl
  rw [hall2]
  simp only [Bool.false_eq_true, if_false]
  have hallpq : (stripSlash p.path ++ p.query).all tailCharOk = true := by
    rw [List.all_eq_true]
    intro c hc
    rcases List.mem_append.mp hc with hc | hc
    · exact (h5 c (stripSlash_subset hc)).1
    · exact (h6 c hc).1
  rw [if_pos hallpq]

theorem normRender_no_hash {p : UrlParts} (wf : UrlWF p) :
    ∀ c ∈ normRender p, decide (c ≠ '#') = true := by
  obtain ⟨h1, h2, h3, h4, h5, h6⟩ := wf
  intro c hc
  rw [normRender_split] at hc
  rcases List.mem_append.mp hc with hc | hc
  · cases hsec : p.secure
    · rw [hsec] at hc
      simp only [Bool.false_eq_true, if_false] at hc
      exact (by decide : ∀ c ∈ "http://".toList, decide (c ≠ '#') = true) c hc
    · rw [hsec] at hc
      simp only [if_true] at hc
      exact (by decide : ∀ c ∈ "https://".toList, decide (c ≠ '#') = true) c hc
  · rcases List.mem_append.mp hc with hc | hc
    · simp [(h3 c hc).2.2]
    · rcases List.mem_append.mp hc with hc | hc
      · simp [(h5 c (stripSlash_subset hc)).2.2]
      · unfold UrlParts.searchL at hc
        split at hc
        · cases hc
        · rcases List.mem_cons.mp hc with hc | hc
          · subst hc; decide
          · simp [(h6 c hc).2]

theorem normRender_no_ws {p : UrlParts} (wf : UrlWF p) :
    ∀ c ∈ normRender p, isWsChar c = false := by
  obtain ⟨h1, h2, h3, h4, h5, h6⟩ := wf
  intro c hc
  rw [normRender_split] at hc
  rcases List.mem_append.mp hc with hc | hc
  · cases hsec : p.secure
    · rw [hsec] at hc
      simp only [Bool.false_eq_true, if_false] at hc
      exact (by decide : ∀ c ∈ "http://".toList, isWsChar c = false) c hc
    · rw [hsec] at hc
      simp only [if_true] at hc
      exact (by decide : ∀ c ∈ "https://".toList, isWsChar c = false) c hc
  · rcases List.mem_append.mp hc with hc | hc
    · have := List.all_eq_true.mp h2 c hc
      unfold hostCharOk at this
      simp only [Bool.and_eq_true, Bool.not_eq_true'] at this
      exact this.1.1
    · rcases List.mem_append.mp hc with hc | hc
      · have := (h5 c (stripSlash_subset hc)).1
        unfold tailCharOk at this
        simpa using this
      · unfold UrlParts.searchL at hc
        split at hc
        · cases hc
        · rcases List.mem_cons.mp hc with hc | hc
          · subst hc; decide
          · have := (h6 c hc).1
            unfold tailCharOk at this
            simpa using this

theorem parse_render {p : UrlParts} (wf : UrlWF p) :
    parseUrlL (normRender p) = some ⟨p.secure, p.host,
      (if stripSlash p.path = [] then ['/'] else stripSlash p.path), p.query⟩ := by
  simp only [parseUrlL]
  rw [takeWhile_eq_self_of_all (normRender_no_hash wf)]
  rw [normRender_split]
  cases hsec : p.secure
  · simp only [Bool.false_eq_true, if_false]
    rw [https_not_prefixOf_http]
    simp only [Bool.false_eq_true, if_false]
    rw [isPrefixOf_append_self]
    simp only [if_true]
    rw [show (7 : Nat) = ("http://".toList).length from by decide, List.drop_left]
    rw [parseAfterScheme_render wf false]
  · simp only [if_true]
    rw [isPrefixOf_append_self]
    simp only [if_true]
    rw [show (8 : Nat) = ("https://".toList).length from by decide, List.drop_left]
    rw [parseAfterScheme_render wf true]

theorem normRender_fold {p : UrlParts}
    (hns : ¬ (stripSlash p.path).getLast? = some '/') :
    (⟨p.secure, p.host,
      (if stripSlash p.path = [] then ['/'] else stripSlash p.path),
      p.query⟩ : UrlParts).originL ++
      stripSlash (if stripSlash p.path = [] then ['/'] else stripSlash p.path) ++
      UrlParts.searchL ⟨p.secure, p.host,
        (if stripSlash p.path = [] then ['/'] else stripSlash p.path),
        p.query⟩ = normRender p := by
  have ho : (⟨p.secure, p.host,
      (if stripSlash p.path = [] then ['/'] else stripSlash p.path),
      p.query⟩ : UrlParts).originL = p.originL := rfl
  have hs : UrlParts.searchL ⟨p.secure, p.host,
      (if stripSlash p.path = [] then ['/'] else stripSlash p.path),
      p.query⟩ = p.searchL := rfl
  have hm : stripSlash (if stripSlash p.path = [] then ['/'] else stripSlash p.path) =
      stripSlash p.path := by
    by_cases hsp : stripSlash p.path = []
    · rw [if_pos hsp, hsp]; decide
    · rw [if_neg hsp]
      exact stripSlash_fix hns
  rw [ho, hs, hm]
  rfl

theorem normalizeUrl_render {p : UrlParts} (wf : UrlWF p)
    (hns : ¬ (stripSlash p.path).getLast? = some '/') :
    normalizeUrl (String.mk (normRender p)) = some (String.mk (normRender p)) := by
  have hvalid : isValidUrl (String.mk (normRender p)) = true := by
    unfold isValidUrl parseUrl
    have ht2 : (String.mk (normRender p)).toList = normRender p := rfl
    rw [ht2, parse_render wf]
    cases hsec : p.secure
    · simp [UrlParts.schemeL]
    · simp [UrlParts.schemeL]
  simp only [normalizeUrl]
  have ht : (String.mk (normRender p)).toList = normRender p := rfl
  rw [ht, trimL_eq_self (normRender_no_ws wf)]
  have hcond : ("http://".toList.isPrefixOf (normRender p) ||
      "https://".toList.isPrefixOf (normRender p)) = true := by
    rw [normRender_split]
    cases hsec : p.secure
    · simp only [Bool.false_eq_true, if_false]
      rw [isPrefixOf_append_self]
      simp
    · simp only [if_true]
      rw [isPrefixOf_append_self]
      simp
  have hpre : prependScheme (normRender p) = normRender p := by
    unfold prependScheme
    rw [if_pos hcond]
  rw [hpre, parse_render wf]
  simp only [normRender_fold hns, hvalid, if_true]

theorem normalizeUrl_some_inv {u v : String} (h : normalizeUrl u = some v) :
    ∃ p, parseUrlL (prependScheme (trimL u.toList)) = some p ∧
      v = String.mk (normRender p) := by
  simp only [normalizeUrl] at h
  cases hq : parseUrlL (prependScheme (trimL u.toList)) with
  | none => rw [hq] at h; cases h
  | some p =>
    simp only [hq] at h
    by_cases hv : isValidUrl
        (String.mk (p.originL ++ stripSlash p.path ++ p.searchL)) = true
    · rw [if_pos hv] at h
      exact ⟨p, rfl, (Option.some.inj h).symm⟩
    · rw [if_neg hv] at h
      cases h

/-! ## processUrl lemmas -/

theorem processUrl_spec (L : String → Option (List String)) (base : String)
    (v : List String) (url : String) :
    ((processUrl L base v url).1 = v ∧ (processUrl L base v url).2.2 = none) ∨
    (∃ c, (processUrl L base v url).2.2 = some (c, false) ∧ c ∉ v ∧
      (processUrl L base v url).1 = v) ∨
    (∃ c, (processUrl L base v url).2.2 = some (c, true) ∧ c ∉ v ∧
      (processUrl L base v url).1 = addSet v c) := by
  simp only [processUrl]
  split
  · exact Or.inl ⟨rfl, rfl⟩
  · split
    · exact Or.inl ⟨rfl, rfl⟩
    · split
      · split
        · exact Or.inl ⟨rfl, rfl⟩
        · split
          · exact Or.inl ⟨rfl, rfl⟩
          · split
            · exact Or.inl ⟨rfl, rfl⟩
            · split
              · exact Or.inr (Or.inl ⟨_, rfl, by assumption, rfl⟩)
              · exact Or.inr (Or.inr ⟨_, rfl, by assumption, rfl⟩)
      · exact Or.inl ⟨rfl, rfl⟩

theorem processUrl_discovered_sublist (L : String → Option (List String))
    (base : String) (v : List String) (url : String) :
    List.Sublist (processUrl L base v url).2.1
      (((L (cleanedTarget url)).getD []).filterMap normalizeUrl) := by
  have hct : ∀ n, normalizeUrl url = some n → cleanedTarget url = cleanUrl n := by
    intro n hn
    simp [cleanedTarget, hn]
  cases hn : normalizeUrl url with
  | none =>
    simp only [processUrl, hn]
    split
    · exact List.nil_sublist _
    · exact List.nil_sublist _
  | some n =>
    rw [hct n hn]
    cases hrl : L (cleanUrl n) with
    | none =>
      simp only [processUrl, hn, hrl]
      split
      · exact List.nil_sublist _
      · split
        · split
          · exact List.nil_sublist _
          · split
            · exact List.nil_sublist _
            · split
              · exact List.nil_sublist _
              · exact List.nil_sublist _
        · exact List.nil_sublist _
    | some pls =>
      simp only [processUrl, hn, hrl, Option.getD_some]
      split
      · exact List.nil_sublist _
      · split
        · split
          · exact List.nil_sublist _
          · split
            · exact List.nil_sublist _
            · split
              · exact List.nil_sublist _
              · exact List.filter_sublist _
        · exact List.nil_sublist _

/-! ## Measure lemmas -/

theorem urlWeight_pos (L : String → Option (List String)) (m : Nat) (u : String) (d : Nat) :
    1 ≤ urlWeight L m u d := by
  rw [urlWeight]
  split <;> omega

theorem urlWeight_of_lt (L : String → Option (List String)) {m d : Nat} (u : String)
    (h : ¬ m ≤ d) : urlWeight L m u d =
      1 + ((((L (cleanedTarget u)).getD []).filterMap normalizeUrl).map
        fun l => urlWeight L m l (d + 1)).sum := by
  rw [urlWeight, if_neg h]

theorem queueWeight_cons (L : String → Option (List String)) (m : Nat) (e : String × Nat)
    (q : List (String × Nat)) :
    queueWeight L m (e :: q) = urlWeight L m e.1 e.2 + queueWeight L m q := by
  simp [queueWeight]

theorem queueWeight_append (L : String → Option (List String)) (m : Nat)
    (q1 q2 : List (String × Nat)) :
    queueWeight L m (q1 ++ q2) = queueWeight L m q1 + queueWeight L m q2 := by
  simp [queueWeight]

/-! ## admitLinks lemmas -/

theorem admitLinks_weight (P : CrawlParams) (depth : Nat) :
    ∀ (ls : List String) (uniq : List String) (queue : List (String × Nat)),
    queueWeight P.render P.maxDepth (admitLinks P depth uniq queue ls).2 ≤
      queueWeight P.render P.maxDepth queue +
        (ls.map fun l => urlWeight P.render P.maxDepth l (depth + 1)).sum := by
  intro ls
  induction ls with
  | nil => intro uniq queue; simp [admitLinks]
  | cons link rest ih =>
    intro uniq queue
    simp only [admitLinks]
    split
    · split
      · have h := ih (uniq ++ [link]) (queue ++ [(link, depth + 1)])
        rw [queueWeight_append] at h
        simp only [List.map_cons, List.sum_cons]
        have h2 : queueWeight P.render P.maxDepth [(link, depth + 1)] =
            urlWeight P.render P.maxDepth link (depth + 1) := by
          simp [queueWeight]
        omega
      · have h := ih uniq queue
        simp only [List.map_cons, List.sum_cons]
        omega
    · have h := ih uniq queue
      simp only [List.map_cons, List.sum_cons]
      omega

theorem admitLinks_noop (P : CrawlParams) {depth : Nat}
    (hd : ¬ depth + 1 ≤ P.maxDepth) :
    ∀ (ls : List String) (uniq : List String) (queue : List (String × Nat)),
    admitLinks P depth uniq queue ls = (uniq, queue) := by
  intro ls
  induction ls with
  | nil => intro uniq queue; rfl
  | cons link rest ih =>
    intro uniq queue
    simp only [admitLinks]
    rw [if_neg fun hc => hd hc.2]
    exact ih uniq queue

theorem admitLinks_mem (P : CrawlParams) (depth : Nat) :
    ∀ (ls : List String) (uniq : List String) (queue : List (String × Nat))
      (e : String × Nat), e ∈ (admitLinks P depth uniq queue ls).2 →
      e ∈ queue ∨ (e.2 = depth + 1 ∧ depth + 1 ≤ P.maxDepth) := by
  intro ls
  induction ls with
  | nil => intro uniq queue e he; exact Or.inl he
  | cons link rest ih =>
    intro uniq queue e he
    simp only [admitLinks] at he
    split at he
    · split at he
      · rcases ih _ _ _ he with hq | hd
        · rcases List.mem_append.mp hq with hq | hq
          · exact Or.inl hq
          · simp only [List.mem_singleton] at hq
            subst hq
            exact Or.inr ⟨rfl, (by assumption : _ ∧ _).2⟩
        · exact Or.inr hd
      · exact ih _ _ _ he
    · exact ih _ _ _ he

/-! ## Dispatch-loop lemmas -/

theorem dispatchOne_cases (P : CrawlParams) (st : CrawlState) (url : String)
    (depth : Nat) (rest : List (String × Nat)) :
    (url ∈ st.visited ∧ dispatchOne P st url depth rest = { st with queue := rest }) ∨
    (url ∉ st.visited ∧ shouldVisitUrl url P.baseUrl ⟨some P.keywords⟩ = false ∧
      dispatchOne P st url depth rest =
        { st with queue := rest, visited := addSet st.visited url }) ∨
    (url ∉ st.visited ∧ shouldVisitUrl url P.baseUrl ⟨some P.keywords⟩ = true ∧
      dispatchOne P st url depth rest =
        { queue := (admitLinks P depth st.uniq rest
            (processUrl P.render P.baseUrl st.visited url).2.1).2,
          uniq := (admitLinks P depth st.uniq rest
            (processUrl P.render P.baseUrl st.visited url).2.1).1,
          visited := addSet (processUrl P.render P.baseUrl st.visited url).1 url,
          rendered := st.rendered ++
            renderTrace (processUrl P.render P.baseUrl st.visited url).2.2 depth,
          loaded := st.loaded ++
            loadTrace (processUrl P.render P.baseUrl st.visited url).2.2,
          saves := if P.persist ∧
              (addSet (processUrl P.render P.baseUrl st.visited url).1 url).length % 10 = 0
            then st.saves ++
              [(addSet (processUrl P.render P.baseUrl st.visited url).1 url).length]
            else st.saves }) := by
  by_cases h1 : url ∈ st.visited
  · exact Or.inl ⟨h1, by simp only [dispatchOne]; rw [if_pos h1]⟩
  · cases h2 : shouldVisitUrl url P.baseUrl ⟨some P.keywords⟩
    · refine Or.inr (Or.inl ⟨h1, rfl, ?_⟩)
      simp only [dispatchOne]
      rw [if_neg h1, if_pos (by simp [h2])]
    · refine Or.inr (Or.inr ⟨h1, rfl, ?_⟩)
      simp only [dispatchOne]
      rw [if_neg h1, if_neg (by simp [h2])]

theorem dispatchOne_weight (P : CrawlParams) (st : CrawlState) (url : String)
    (depth : Nat) (rest : List (String × Nat)) :
    queueWeight P.render P.maxDepth (dispatchOne P st url depth rest).queue <
      urlWeight P.render P.maxDepth url depth +
        queueWeight P.render P.maxDepth rest := by
  have hpos := urlWeight_pos P.render P.maxDepth url depth
  rcases dispatchOne_cases P st url depth rest with ⟨_, heq⟩ | ⟨_, _, heq⟩ | ⟨_, _, heq⟩ <;>
    rw [heq]
  · show queueWeight P.render P.maxDepth rest < _
    omega
  · show queueWeight P.render P.maxDepth rest < _
    omega
  · show queueWeight P.render P.maxDepth (admitLinks P depth st.uniq rest
      (processUrl P.render P.baseUrl st.visited url).2.1).2 < _
    have hb := admitLinks_weight P depth
      (processUrl P.render P.baseUrl st.visited url).2.1 st.uniq rest
    by_cases hd : P.maxDepth ≤ depth
    · rw [admitLinks_noop P (by omega)]
      show queueWeight P.render P.maxDepth rest < _
      omega
    · have hsub := processUrl_discovered_sublist P.render P.baseUrl st.visited url
      have hsum := sum_map_le_of_sublist
        (fun l => urlWeight P.render P.maxDepth l (depth + 1)) hsub
      have hw := urlWeight_of_lt P.render url hd
      omega

theorem crawlLoop_isSome (P : CrawlParams) :
    ∀ (fuel : Nat) (st : CrawlState),
      queueWeight P.render P.maxDepth st.queue ≤ fuel →
      (crawlLoop P fuel st).isSome = true := by
  intro fuel
  induction fuel with
  | zero =>
    intro st h
    cases hq : st.queue with
    | nil => simp [crawlLoop, hq]
    | cons e q =>
      exfalso
      rw [hq, queueWeight_cons] at h
      have := urlWeight_pos P.render P.maxDepth e.1 e.2
      omega
  | succ n ih =>
    intro st h
    cases hq : st.queue with
    | nil => simp [crawlLoop, hq]
    | cons e q =>
      obtain ⟨u, d⟩ := e
      have hred : crawlLoop P (n + 1) st = crawlLoop P n (dispatchOne P st u d q) := by
        simp [crawlLoop, hq]
      rw [hred]
      apply ih
      have hw := dispatchOne_weight P st u d q
      rw [hq, queueWeight_cons] at h
      simp only at h
      omega

theorem crawlLoop_queue_nil (P : CrawlParams) :
    ∀ (fuel : Nat) (st fin : CrawlState),
      crawlLoop P fuel st = some fin → fin.queue = [] := by
  intro fuel
  induction fuel with
  | zero =>
    intro st fin h
    cases hq : st.queue with
    | nil => rw [crawlLoop, hq] at h; cases h; rw [hq]
    | cons e q => rw [crawlLoop, hq] at h; cases h
  | succ n ih =>
    intro st fin h
    cases hq : st.queue with
    | nil => rw [crawlLoop, hq] at h; cases h; rw [hq]
    | cons e q =>
      obtain ⟨u, d⟩ := e
      rw [crawlLoop, hq] at h
      exact ih _ _ h

theorem dispatchOne_inv (P : CrawlParams) (st : CrawlState) (url : String)
    (depth : Nat) (rest : List (String × Nat)) (h : crawlInv st) :
    crawlInv (dispatchOne P st url depth rest) := by
  obtain ⟨hv, hl, hm⟩ := h
  rcases dispatchOne_cases P st url depth rest with
    ⟨_, heq⟩ | ⟨_, _, heq⟩ | ⟨hnv, _, heq⟩ <;> rw [heq]
  · exact ⟨hv, hl, hm⟩
  · exact ⟨addSet_nodup hv, hl, fun c hc => mem_addSet_of_mem (hm c hc)⟩
  · rcases processUrl_spec P.render P.baseUrl st.visited url with
      ⟨h1, h2⟩ | ⟨c, h2, hcnv, h1⟩ | ⟨c, h2, hcnv, h1⟩
    · rw [h1, h2]
      refine ⟨addSet_nodup hv, ?_, ?_⟩
      · show (st.loaded ++ loadTrace none).Nodup
        simpa [loadTrace] using hl
      · intro x hx
        have hx' : x ∈ st.loaded := by simpa [loadTrace] using hx
        exact mem_addSet_of_mem (hm x hx')
    · rw [h1, h2]
      refine ⟨addSet_nodup hv, ?_, ?_⟩
      · show (st.loaded ++ loadTrace (some (c, false))).Nodup
        simpa [loadTrace] using hl
      · intro x hx
        have hx' : x ∈ st.loaded := by simpa [loadTrace] using hx
        exact mem_addSet_of_mem (hm x hx')
    · rw [h1, h2]
      have hcnot : c ∉ st.loaded := fun hmem => hcnv (hm c hmem)
      refine ⟨addSet_nodup (addSet_nodup hv), ?_, ?_⟩
      · show (st.loaded ++ loadTrace (some (c, true))).Nodup
        simp only [loadTrace, if_true]
        exact nodup_concat hcnot hl
      · intro x hx
        have hx' : x ∈ st.loaded ++ [c] := by simpa [loadTrace] using hx
        rcases List.mem_append.mp hx' with hx2 | hx2
        · exact mem_addSet_of_mem (mem_addSet_of_mem (hm x hx2))
        · have hx3 : x = c := by simpa using hx2
          subst hx3
          exact mem_addSet_of_mem (mem_addSet_self _ _)

theorem crawlLoop_inv (P : CrawlParams) :
    ∀ (fuel : Nat) (st fin : CrawlState), crawlInv st →
      crawlLoop P fuel st = some fin → crawlInv fin := by
  intro fuel
  induction fuel with
  | zero =>
    intro st fin h hl
    cases hq : st.queue with
    | nil => rw [crawlLoop, hq] at hl; cases hl; exact h
    | cons e q => rw [crawlLoop, hq] at hl; cases hl
  | succ n ih =>
    intro st fin h hl
    cases hq : st.queue with
    | nil => rw [crawlLoop, hq] at hl; cases hl; exact h
    | cons e q =>
      obtain ⟨u, d⟩ := e
      rw [crawlLoop, hq] at hl
      exact ih _ _ (dispatchOne_inv P st u d q h) hl

theorem dispatchOne_depth (P : CrawlParams) (st : CrawlState) (url : String)
    (depth : Nat) (rest : List (String × Nat))
    (hq : ∀ e ∈ rest, e.2 ≤ P.maxDepth) (hd : depth ≤ P.maxDepth)
    (hr : ∀ e ∈ st.rendered, e.2 ≤ P.maxDepth) :
    (∀ e ∈ (dispatchOne P st url depth rest).queue, e.2 ≤ P.maxDepth) ∧
    (∀ e ∈ (dispatchOne P st url depth rest).rendered, e.2 ≤ P.maxDepth) := by
  rcases dispatchOne_cases P st url depth rest with
    ⟨_, heq⟩ | ⟨_, _, heq⟩ | ⟨_, _, heq⟩ <;> rw [heq]
  · exact ⟨hq, hr⟩
  · exact ⟨hq, hr⟩
  · constructor
    · intro e he
      rcases admitLinks_mem P depth _ _ _ e he with he2 | he2
      · exact hq e he2
      · omega
    · intro e he
      cases hpo : (processUrl P.render P.baseUrl st.visited url).2.2 with
      | none =>
        rw [hpo] at he
        have he' : e ∈ st.rendered := by simpa [renderTrace] using he
        exact hr e he'
      | some c =>
        rw [hpo] at he
        have he' : e ∈ st.rendered ++ [(c.1, depth)] := by simpa [renderTrace] using he
        rcases List.mem_append.mp he' with he2 | he2
        · exact hr e he2
        · have he3 : e = (c.1, depth) := by simpa using he2
          subst he3
          exact hd

theorem crawlLoop_depth (P : CrawlParams) :
    ∀ (fuel : Nat) (st fin : CrawlState),
      (∀ e ∈ st.queue, e.2 ≤ P.maxDepth) →
      (∀ e ∈ st.rendered, e.2 ≤ P.maxDepth) →
      crawlLoop P fuel st = some fin →
      ∀ e ∈ fin.rendered, e.2 ≤ P.maxDepth := by
  intro fuel
  induction fuel with
  | zero =>
    intro st fin hq hr hl
    cases hqe : st.queue with
    | nil => rw [crawlLoop, hqe] at hl; cases hl; exact hr
    | cons e q => rw [crawlLoop, hqe] at hl; cases hl
  | succ n ih =>
    intro st fin hq hr hl
    cases hqe : st.queue with
    | nil => rw [crawlLoop, hqe] at hl; cases hl; exact hr
    | cons e q =>
      obtain ⟨u, d⟩ := e
      rw [crawlLoop, hqe] at hl
      have hqrest : ∀ e ∈ q, e.2 ≤ P.maxDepth := fun e he =>
        hq e (hqe ▸ List.mem_cons_of_mem _ he)
      have hdep : d ≤ P.maxDepth := hq (u, d) (hqe ▸ List.mem_cons_self _ _)
      obtain ⟨hq2, hr2⟩ := dispatchOne_depth P st u d q hqrest hdep hr
      exact ih _ _ hq2 hr2 hl

theorem dispatchOne_saves (P : CrawlParams) (st : CrawlState) (url : String)
    (depth : Nat) (rest : List (String × Nat))
    (h : ∀ x ∈ st.saves, x % 10 = 0) :
    ∀ x ∈ (dispatchOne P st url depth rest).saves, x % 10 = 0 := by
  rcases dispatchOne_cases P st url depth rest with
    ⟨_, heq⟩ | ⟨_, _, heq⟩ | ⟨_, _, heq⟩ <;> rw [heq]
  · exact h
  · exact h
  · intro x hx
    split at hx
    · rcases List.mem_append.mp hx with hx2 | hx2
      · exact h x hx2
      · have hx3 : x = (addSet (processUrl P.render P.baseUrl st.visited url).1
            url).length := by simpa using hx2
        subst hx3
        exact (by assumption : _ ∧ _).2
    · exact h x hx

theorem crawlLoop_saves (P : CrawlParams) :
    ∀ (fuel : Nat) (st fin : CrawlState),
      (∀ x ∈ st.saves, x % 10 = 0) →
      crawlLoop P fuel st = some fin →
      ∀ x ∈ fin.saves, x % 10 = 0 := by
  intro fuel
  induction fuel with
  | zero =>
    intro st fin h hl
    cases hq : st.queue with
    | nil => rw [crawlLoop, hq] at hl; cases hl; exact h
    | cons e q => rw [crawlLoop, hq] at hl; cases hl
  | succ n ih =>
    intro st fin h hl
    cases hq : st.queue with
    | nil => rw [crawlLoop, hq] at hl; cases hl; exact h
    | cons e q =>
      obtain ⟨u, d⟩ := e
      rw [crawlLoop, hq] at hl
      exact ih _ _ (dispatchOne_saves P st u d q h) hl

/-! ## crawlWebsite structure lemmas -/

theorem finalSave_queue (p : Bool) (st : CrawlState) :
    (finalSave p st).queue = st.queue := by
  unfold finalSave; split <;> rfl

theorem finalSave_visited (p : Bool) (st : CrawlState) :
    (finalSave p st).visited = st.visited := by
  unfold finalSave; split <;> rfl

theorem finalSave_rendered (p : Bool) (st : CrawlState) :
    (finalSave p st).rendered = st.rendered := by
  unfold finalSave; split <;> rfl

theorem finalSave_loaded (p : Bool) (st : CrawlState) :
    (finalSave p st).loaded = st.loaded := by
  unfold finalSave; split <;> rfl

theorem finalSave_saves_true (st : CrawlState) :
    (finalSave true st).saves = st.saves ++ [st.visited.length] := by
  simp [finalSave]

theorem crawlWebsite_dest {render : String → Option (List String)} {startUrl : String}
    {opts : CrawlOptions} {fuel : Nat} {fin : CrawlState}
    (h : crawlWebsite render startUrl opts fuel = some fin) :
    ∃ st', crawlLoop (crawlParams render startUrl opts) fuel
        (initState startUrl opts) = some st' ∧
      fin = finalSave opts.persist st' := by
  unfold crawlWebsite at h
  cases hcl : crawlLoop (crawlParams render startUrl opts) fuel
      (initState startUrl opts) with
  | none => rw [hcl] at h; cases h
  | some st' =>
    rw [hcl] at h
    exact ⟨st', rfl, (Option.some.inj h).symm⟩

theorem initState_queue_depth (startUrl : String) (opts : CrawlOptions) :
    ∀ e ∈ (initState startUrl opts).queue, e.2 = 0 ∨ e.2 = 1 := by
  intro e he
  simp only [initState] at he
  rcases List.mem_cons.mp he with he | he
  · left; rw [he]
  · right
    obtain ⟨u, _, hEq⟩ := List.mem_map.mp he
    rw [← hEq]

theorem cont_mem {startUrl : String} {uniq1 visited0 : List String} {x : String}
    (hx : x ∈ uniq1) (hnv : x ∉ visited0) (hns : x ≠ startUrl) :
    (x, 1) ∈ ((uniq1.filter fun u => decide (u ∉ visited0)).filter
      fun u => decide (u ≠ startUrl)).map fun u => (u, 1) := by
  refine List.mem_map.mpr ⟨x, ?_, rfl⟩
  exact List.mem_filter.mpr
    ⟨List.mem_filter.mpr ⟨hx, by simpa using hnv⟩, by simpa using hns⟩

theorem cont_not_mem {startUrl : String} {uniq1 visited0 : List String}
    {x : String} (hxv : x ∈ visited0) (d : Nat) :
    (x, d) ∉ ((uniq1.filter fun u => decide (u ∉ visited0)).filter
      fun u => decide (u ≠ startUrl)).map fun u => (u, 1) := by
  intro hmem
  obtain ⟨u, hu, hEq⟩ := List.mem_map.mp hmem
  have hux : u = x := congrArg Prod.fst hEq
  subst hux
  have h1 := (List.mem_filter.mp (List.mem_filter.mp hu).1).2
  simp only [decide_eq_true_eq] at h1
  exact h1 hxv

/-! ## SetStore lemmas -/

theorem getD_set_self : ∀ (l : List (List String)) (i : Nat) (v : List String),
    i < l.length → (l.set i v).getD i [] = v := by
  intro l
  induction l with
  | nil => intro i v h; exact absurd h (by simp)
  | cons a t ih =>
    intro i v h
    cases i with
    | zero => rfl
    | succ n => exact ih n v (Nat.lt_of_succ_lt_succ (by simpa using h))

theorem getD_set_ne : ∀ (l : List (List String)) (i j : Nat) (v : List String),
    i ≠ j → (l.set i v).getD j [] = l.getD j [] := by
  intro l
  induction l with
  | nil => intro i j v _; rfl
  | cons a t ih =>
    intro i j v hij
    cases i with
    | zero =>
      cases j with
      | zero => exact absurd rfl hij
      | succ m => rfl
    | succ n =>
      cases j with
      | zero => rfl
      | succ m => exact ih n m v fun hc => hij (by rw [hc])

theorem readSet_writeSet_self (h : SetStore) (r : Nat) (v : List String)
    (hr : r < h.sets.length) : readSet (writeSet h r v) r = v :=
  getD_set_self h.sets r v hr

theorem readSet_writeSet_ne (h : SetStore) (r r' : Nat) (v : List String)
    (hne : r ≠ r') : readSet (writeSet h r v) r' = readSet h r' :=
  getD_set_ne h.sets r r' v hne

theorem writeSet_length (h : SetStore) (r : Nat) (v : List String) :
    (writeSet h r v).sets.length = h.sets.length := by
  simp [writeSet]

theorem initState_queue_eq (startUrl : String) (opts : CrawlOptions)
    (uniq0 visited0 : List String)
    (hu : opts.uniqueUrls = some uniq0) (hv : opts.visitedUrls = some visited0) :
    (initState startUrl opts).queue = (startUrl, 0) ::
      (((match normalizeUrl startUrl with
          | some n => addSet uniq0 n
          | none => uniq0).filter fun u => decide (u ∉ visited0)).filter
        fun u => decide (u ≠ startUrl)).map (fun u => (u, 1)) := by
  simp [initState, hu, hv]

/-! ## Claims -/

/-- C1, counterexample to the claim as stated: a deterministic run in
which the Visited set ends up holding two distinct member strings with
the same cleaned canonical form (`https://x.com/docs/b?pk_kwd=1` and
`https://x.com/docs/b?pk_campaign=2`, whose cleaned forms agree since
both parameters are on `cleanUrl`'s tracking list), and in which
`page.goto` is invoked twice on the same cleaned canonical URL
`https://x.com/docs/b`: its first navigation fails (the oracle answers
`none`), so `processUrl` returns before the
`visitedUrls.add(cleanedUrl)` at processUrls.js line 217 and only the
raw member string is marked visited by the completion callback; the
second member string then passes the line-150 pre-render check and is
navigated again.  So neither "each URL at most once in Visited" under
canonical identity nor "render at most once per cleaned URL" holds. -/
theorem crawl_visited_cleaned_duplicate :
    (crawlWebsite
        (fun u => if u = "https://x.com/docs/a" then
          some ["https://x.com/docs/b?pk_kwd=1",
            "https://x.com/docs/b?pk_campaign=2"]
        else if u = "https://x.com/docs/b" then none
        else some [])
        "https://x.com/docs/a" ⟨5, [], none, none, none, false⟩ 10).map
      (fun fin => (fin.visited, fin.rendered)) =
      some (["https://x.com/docs/a", "https://x.com/docs/b?pk_kwd=1",
          "https://x.com/docs/b?pk_campaign=2"],
        [("https://x.com/docs/a", 0), ("https://x.com/docs/b", 1),
          ("https://x.com/docs/b", 1)]) ∧
    cleanUrl "https://x.com/docs/b?pk_kwd=1" =
      cleanUrl "https://x.com/docs/b?pk_campaign=2" ∧
    "https://x.com/docs/b?pk_kwd=1" ≠ "https://x.com/docs/b?pk_campaign=2" := by
  exact ⟨by decide, by decide, by decide⟩

/-- C1 (amended): the Visited set never holds the same exact URL string
twice, and a successful page load — a navigation that reaches the
visited-mark at processUrls.js line 217 — happens at most once per
cleaned canonical URL in a (sequential) run.  The render invocation
itself carries no such bound, because a failed navigation leaves the
cleaned URL unvisited; and the comparisons at admission, enqueue and
pop time use the normalised uncleaned string, with only `processUrl`'s
pre-render check using the cleaned string. -/
theorem crawl_visited_nodup_loaded_once (render : String → Option (List String))
    (startUrl : String) (opts : CrawlOptions) (fuel : Nat) (fin : CrawlState)
    (hnd : (opts.visitedUrls.getD []).Nodup)
    (h : crawlWebsite render startUrl opts fuel = some fin) :
    fin.visited.Nodup ∧ fin.loaded.Nodup := by
  obtain ⟨st', hcl, hfin⟩ := crawlWebsite_dest h
  have hinv : crawlInv (initState startUrl opts) := by
    refine ⟨hnd, by simp [initState], by simp [initState]⟩
  have hfininv := crawlLoop_inv _ _ _ _ hinv hcl
  rw [hfin, finalSave_visited, finalSave_loaded]
  exact ⟨hfininv.1, hfininv.2.1⟩

/-- Witness for C1's amended theorem at a concrete crawl. -/
theorem crawl_visited_nodup_loaded_once_witness :
    (⟨[], ["https://w1.com/docs"], ["https://w1.com/docs"],
        [("https://w1.com/docs", 0)], ["https://w1.com/docs"],
        []⟩ : CrawlState).visited.Nodup ∧
    (⟨[], ["https://w1.com/docs"], ["https://w1.com/docs"],
        [("https://w1.com/docs", 0)], ["https://w1.com/docs"],
        []⟩ : CrawlState).loaded.Nodup :=
  crawl_visited_nodup_loaded_once (fun _ => some []) "https://w1.com/docs"
    ⟨3, [], none, none, none, false⟩ 5 _ (by decide) (by decide)

/-- C2: the crawl loop terminates — for every render oracle, start URL
and options there is a fuel on which `crawlWebsite` returns the final
state with an empty queue (the measure `queueWeight` strictly decreases
at every dispatch cycle). -/
theorem crawl_terminates (render : String → Option (List String)) (startUrl : String)
    (opts : CrawlOptions) :
    ∃ fuel fin, crawlWebsite render startUrl opts fuel = some fin ∧
      fin.queue = [] := by
  refine ⟨queueWeight (crawlParams render startUrl opts).render
    (crawlParams render startUrl opts).maxDepth (initState startUrl opts).queue,
    ?_⟩
  have h := crawlLoop_isSome (crawlParams render startUrl opts) _
    (initState startUrl opts) le_rfl
  obtain ⟨st', hst'⟩ := Option.isSome_iff_exists.mp h
  refine ⟨finalSave opts.persist st', ?_, ?_⟩
  · unfold crawlWebsite
    rw [hst']
    rfl
  · rw [finalSave_queue]
    exact crawlLoop_queue_nil _ _ _ _ hst'

/-- C3, counterexample to the claim as stated: with `maxDepth = 0` and a
persisted unvisited URL, the continuation setup enqueues it at depth 1
without any depth check, and it is dispatched to render at recorded
depth 1 > maxDepth. -/
theorem crawl_continuation_depth_violation :
    (crawlWebsite (fun _ => some []) "https://x.com/docs/a"
        ⟨0, [], none, some ["https://x.com/docs/b"], none, false⟩ 10).map
      CrawlState.rendered =
      some [("https://x.com/docs/a", 0), ("https://x.com/docs/b", 1)] ∧
    (⟨0, [], none, some ["https://x.com/docs/b"], none, false⟩ :
      CrawlOptions).maxDepth < 1 := by
  exact ⟨by decide, by decide⟩

/-- C3 (amended): newly discovered links are dropped at enqueue time
when their depth would exceed maxDepth, and since continuation entries
enter at fixed depth 1 without a check, every URL dispatched to render
carries depth ≤ maxDepth provided maxDepth ≥ 1. -/
theorem crawl_depth_bounded (render : String → Option (List String))
    (startUrl : String) (opts : CrawlOptions) (fuel : Nat) (fin : CrawlState)
    (hmd : 1 ≤ opts.maxDepth)
    (h : crawlWebsite render startUrl opts fuel = some fin) :
    ∀ e ∈ fin.rendered, e.2 ≤ opts.maxDepth := by
  obtain ⟨st', hcl, hfin⟩ := crawlWebsite_dest h
  have hq : ∀ e ∈ (initState startUrl opts).queue,
      e.2 ≤ (crawlParams render startUrl opts).maxDepth := by
    intro e he
    rcases initState_queue_depth startUrl opts e he with h0 | h1
    · rw [h0]; exact Nat.zero_le _
    · rw [h1]; exact hmd
  have hall := crawlLoop_depth _ _ _ _ hq (by simp [initState]) hcl
  rw [hfin, finalSave_rendered]
  exact hall

/-- Witness for C3's amended theorem at a concrete crawl. -/
theorem crawl_depth_bounded_witness :
    (("https://w3.com/docs", 0) : String × Nat).2 ≤
      (⟨3, [], none, none, none, false⟩ : CrawlOptions).maxDepth :=
  crawl_depth_bounded (fun _ => some []) "https://w3.com/docs"
    ⟨3, [], none, none, none, false⟩ 5
    ⟨[], ["https://w3.com/docs"], ["https://w3.com/docs"],
      [("https://w3.com/docs", 0)], ["https://w3.com/docs"], []⟩
    (by decide) (by decide) ("https://w3.com/docs", 0) (by decide)

/-- C7, counterexample to the claim as stated: a continuation run whose
persisted unique URLs are all rejected by the admission filter.  Their
rejections grow Visited past 10 entries outside any completion callback,
so no snapshot is attempted when the 10th URL becomes visited; the only
recorded save is the final flush at size 11. -/
theorem crawl_saves_missed_tenth :
    (crawlWebsite (fun _ => some []) "https://x.com/docs/a"
        ⟨5, [], none,
          some ["https://other.com/p1", "https://other.com/p2",
            "https://other.com/p3", "https://other.com/p4",
            "https://other.com/p5", "https://other.com/p6",
            "https://other.com/p7", "https://other.com/p8",
            "https://other.com/p9", "https://other.com/p10"],
          none, true⟩ 20).map
      (fun fin => (fin.saves, fin.visited.length)) = some ([11], 11) := by
  decide

/-- C7 (amended): snapshots are attempted only inside completion
callbacks, when persistence is configured and the visited-set size at
that instant is divisible by 10; one further save is always recorded at
completion (of the final visited size).  Snapshot failures are logged
and never abort in the source; the model records the attempt only. -/
theorem crawl_saves_spec (render : String → Option (List String))
    (startUrl : String) (opts : CrawlOptions) (fuel : Nat) (fin : CrawlState)
    (hp : opts.persist = true)
    (h : crawlWebsite render startUrl opts fuel = some fin) :
    ∃ pre, fin.saves = pre ++ [fin.visited.length] ∧ ∀ x ∈ pre, x % 10 = 0 := by
  obtain ⟨st', hcl, hfin⟩ := crawlWebsite_dest h
  rw [hp] at hfin
  refine ⟨st'.saves, ?_, ?_⟩
  · rw [hfin, finalSave_saves_true, finalSave_visited]
  · exact crawlLoop_saves _ _ _ _ (by simp [initState]) hcl

/-- Witness for C7's amended theorem at a concrete crawl. -/
theorem crawl_saves_spec_witness :
    ∃ pre, (⟨[], ["https://w7.com/docs"], ["https://w7.com/docs"],
        [("https://w7.com/docs", 0)], ["https://w7.com/docs"],
        [1]⟩ : CrawlState).saves =
      pre ++ [(⟨[], ["https://w7.com/docs"], ["https://w7.com/docs"],
        [("https://w7.com/docs", 0)], ["https://w7.com/docs"],
        [1]⟩ : CrawlState).visited.length] ∧
      ∀ x ∈ pre, x % 10 = 0 :=
  crawl_saves_spec (fun _ => some []) "https://w7.com/docs"
    ⟨3, [], none, none, none, true⟩ 5 _ (by decide) (by decide)

/-- C4, counterexample to the claim as stated: tracking-parameter
removal is not applied before the enqueue dedup comparison.  In this run
the seed page links to `https://y.com/docs/b` and
`https://y.com/docs/b?pk_campaign=1`; both are admitted into the Unique
set because `UNIQUE_URLS.has` compares the normalised uncleaned strings,
although their cleaned canonical forms coincide. -/
theorem crawl_uniq_cleaned_duplicate :
    (crawlWebsite
        (fun u => if u = "https://y.com/docs/a" then
          some ["https://y.com/docs/b", "https://y.com/docs/b?pk_campaign=1"]
        else some [])
        "https://y.com/docs/a" ⟨5, [], none, none, none, false⟩ 10).map
      CrawlState.uniq =
      some ["https://y.com/docs/a", "https://y.com/docs/b",
        "https://y.com/docs/b?pk_campaign=1"] ∧
    cleanUrl "https://y.com/docs/b" = cleanUrl "https://y.com/docs/b?pk_campaign=1" ∧
    "https://y.com/docs/b" ≠ "https://y.com/docs/b?pk_campaign=1" := by
  exact ⟨by decide, by decide, by decide⟩

/-- C4 (amended): canonicalisation composed with the clean step is
invariant under the tracking parameter on the given pair, and the
cleaned form does govern `processUrl`'s pre-render visited check: a URL
whose cleaned canonical form is already visited is never rendered.  The
admission and enqueue comparisons, however, use the uncleaned string. -/
theorem cleaned_canonical_invariance :
    (normalizeUrl "https://x.com/a?utm_source=y").map cleanUrl =
      (normalizeUrl "https://x.com/a").map cleanUrl ∧
    ∀ (L : String → Option (List String)) (base : String) (v : List String)
      (url n : String), normalizeUrl url = some n → cleanUrl n ∈ v →
      (processUrl L base v url).2.2 = none := by
  constructor
  · decide
  · intro L base v url n hn hv
    simp only [processUrl, hn]
    repeat' split
    all_goals rfl

/-- Witness for C4's amended theorem: the pre-render check suppresses a
URL whose cleaned form is already visited. -/
theorem cleaned_canonical_invariance_witness :
    (processUrl (fun _ => some []) "https://x.com" ["https://x.com/a"]
      "https://x.com/a?utm_source=y").2.2 = none :=
  cleaned_canonical_invariance.2 (fun _ => some []) "https://x.com"
    ["https://x.com/a"] "https://x.com/a?utm_source=y"
    "https://x.com/a?utm_source=y" (by decide) (by decide)

/-- C5, counterexample to the claim as stated: `normalizeUrl` strips
only one trailing slash, so on `https://x.com/a//` it succeeds with
`https://x.com/a/`, and a second application yields the different string
`https://x.com/a` — canonicalisation is not idempotent on every input it
succeeds on. -/
theorem normalizeUrl_not_idempotent :
    normalizeUrl "https://x.com/a//" = some "https://x.com/a/" ∧
    normalizeUrl "https://x.com/a/" = some "https://x.com/a" ∧
    (normalizeUrl "https://x.com/a//").bind normalizeUrl ≠
      normalizeUrl "https://x.com/a//" := by
  exact ⟨by decide, by decide, by decide⟩

/-- C5 (amended): canonicalisation is idempotent on every URL it
succeeds on whose parsed path does not end in a double slash — i.e.
whenever the path still ends in `/` after the single trailing-slash
strip, idempotence can fail, and otherwise `normalizeUrl` is a fixed
point on its own output. -/
theorem normalizeUrl_idempotent (u v : String) (h : normalizeUrl u = some v)
    (hp : ∀ p, parseUrlL (prependScheme (trimL u.toList)) = some p →
      ¬ (stripSlash p.path).getLast? = some '/') :
    normalizeUrl v = some v := by
  obtain ⟨p, hq, hv⟩ := normalizeUrl_some_inv h
  have wf := parseUrlL_wf hq
  subst hv
  exact normalizeUrl_render wf (hp p hq)

/-- Witness for C5's amended theorem at a concrete URL. -/
theorem normalizeUrl_idempotent_witness :
    normalizeUrl "https://x.com/a" = some "https://x.com/a" :=
  normalizeUrl_idempotent "https://x.com/a/" "https://x.com/a" (by decide)
    (fun p hp => by
      have he : parseUrlL (prependScheme (trimL "https://x.com/a/".toList)) =
          some ⟨true, "x.com".toList, "/a/".toList, []⟩ := by decide
      rw [he] at hp
      cases hp
      decide)

/-- C6: continuation mode enqueues exactly the unvisited remainder — a
crawl started with persisted Unique = {A, B, C} and Visited = {A}, none
equal to the seed, puts (B, 1) and (C, 1) in the queue during setup and
never enqueues A. -/
theorem continuation_enqueues_unvisited (startUrl A B C : String)
    (opts : CrawlOptions)
    (hu : opts.uniqueUrls = some [A, B, C])
    (hv : opts.visitedUrls = some [A])
    (hBA : B ≠ A) (hCA : C ≠ A)
    (hA : A ≠ startUrl) (hB : B ≠ startUrl) (hC : C ≠ startUrl) :
    (B, 1) ∈ (initState startUrl opts).queue ∧
    (C, 1) ∈ (initState startUrl opts).queue ∧
    ∀ d, (A, d) ∉ (initState startUrl opts).queue := by
  rw [initState_queue_eq startUrl opts [A, B, C] [A] hu hv]
  have hmem : ∀ x, x ∈ [A, B, C] →
      x ∈ (match normalizeUrl startUrl with
        | some n => addSet [A, B, C] n
        | none => [A, B, C]) := by
    intro x hx
    cases normalizeUrl startUrl with
    | none => exact hx
    | some n => exact mem_addSet_of_mem hx
  refine ⟨?_, ?_, ?_⟩
  · exact List.mem_cons_of_mem _
      (cont_mem (hmem B (by simp)) (by simp [hBA]) hB)
  · exact List.mem_cons_of_mem _
      (cont_mem (hmem C (by simp)) (by simp [hCA]) hC)
  · intro d hd
    rcases List.mem_cons.mp hd with hd | hd
    · exact hA (congrArg Prod.fst hd)
    · exact cont_not_mem (by simp) d hd

/-- Witness for C6 at concrete URLs. -/
theorem continuation_enqueues_unvisited_witness :
    ("https://x.com/pb", 1) ∈ (initState "https://x.com"
      ⟨5, [], none, some ["https://x.com/pa", "https://x.com/pb",
        "https://x.com/pc"], some ["https://x.com/pa"], false⟩).queue :=
  (continuation_enqueues_unvisited "https://x.com" "https://x.com/pa"
    "https://x.com/pb" "https://x.com/pc"
    ⟨5, [], none, some ["https://x.com/pa", "https://x.com/pb",
      "https://x.com/pc"], some ["https://x.com/pa"], false⟩
    rfl rfl (by decide) (by decide) (by decide) (by decide) (by decide)).1

/-- C8: the keyword gate passes on an empty or absent keyword list;
with a non-empty list it passes exactly when some keyword occurs in the
raw URL as a case-insensitive substring; a URL failing the gate is
rejected by `shouldVisitUrl`; and the example
`https://x.com/api/ref` with keywords `["api"]` is admitted. -/
theorem keyword_gate_spec :
    (∀ url : String, keywordGate (some []) url = true) ∧
    (∀ url : String, keywordGate none url = true) ∧
    (∀ (k : String) (ks : List String) (url : String),
      keywordGate (some (k :: ks)) url =
        (k :: ks).any fun w => inclCI url w) ∧
    (∀ (url baseUrl : String) (o : FilterOptions),
      keywordGate o.keywords url = false →
      shouldVisitUrl url baseUrl o = false) ∧
    shouldVisitUrl "https://x.com/api/ref" "https://x.com" ⟨some ["api"]⟩ = true := by
  refine ⟨fun url => rfl, fun url => rfl, fun k ks url => by simp [keywordGate],
    ?_, by decide⟩
  intro url baseUrl o h
  simp only [shouldVisitUrl]
  split
  · rfl
  split
  · rfl
  cases hpu : parseUrl url with
  | none => rfl
  | some up =>
    cases hpb : parseUrl baseUrl with
    | none => rfl
    | some bp =>
      show shouldVisitParsedUrl url o up bp = false
      simp only [shouldVisitParsedUrl, h, Bool.not_false, eq_self_iff_true,
        if_true, ite_self]

/-- Witness for C8's gate-rejection clause at a concrete URL. -/
theorem keyword_gate_spec_witness :
    shouldVisitUrl "https://x.com/zzz" "https://x.com" ⟨some ["api"]⟩ = false :=
  keyword_gate_spec.2.2.2.1 "https://x.com/zzz" "https://x.com"
    ⟨some ["api"]⟩ (by decide)

/-- C9: the admission filter is total for its caller — a non-string URL
or base URL, an empty URL string, and a parse failure of either argument
all yield the decision `false`; the Lean embedding is a total function,
matching the source's guarantee of never throwing past its catch. -/
theorem shouldVisitUrl_total_reject_on_failure :
    (∀ (b : JsVal) (o : FilterOptions),
      shouldVisitUrlJs JsVal.nonString b o = false) ∧
    (∀ (u : String) (o : FilterOptions),
      shouldVisitUrlJs (JsVal.str u) JsVal.nonString o = false) ∧
    (∀ (b : String) (o : FilterOptions), shouldVisitUrl "" b o = false) ∧
    (∀ (u b : String) (o : FilterOptions), parseUrl u = none →
      shouldVisitUrl u b o = false) ∧
    (∀ (u b : String) (o : FilterOptions), parseUrl b = none →
      shouldVisitUrl u b o = false) := by
  refine ⟨fun b o => rfl, fun u o => rfl, fun b o => rfl, ?_, ?_⟩
  · intro u b o h
    simp only [shouldVisitUrl, h]
    split
    · rfl
    split
    · rfl
    cases hpb : parseUrl b <;> rfl
  · intro u b o h
    simp only [shouldVisitUrl, h]
    split
    · rfl
    split
    · rfl
    cases hpu : parseUrl u <;> rfl

/-- Witness for C9's parse-failure clauses at concrete inputs. -/
theorem shouldVisitUrl_total_reject_on_failure_witness :
    shouldVisitUrl "notaurl" "https://x.com" ⟨none⟩ = false ∧
    shouldVisitUrl "https://x.com/a" "%%bad base%%" ⟨none⟩ = false :=
  ⟨shouldVisitUrl_total_reject_on_failure.2.2.2.1 "notaurl" "https://x.com"
      ⟨none⟩ (by decide),
    shouldVisitUrl_total_reject_on_failure.2.2.2.2 "https://x.com/a"
      "%%bad base%%" ⟨none⟩ (by decide)⟩

/-- C10: when the caller supplies both URL-set objects, `crawlWebsite`
mutates those very objects in place — the returned references are the
caller's own, their final contents are the crawl's Unique/Visited sets
run from their initial contents, and no other object in the store is
touched. -/
theorem crawl_aliases_caller_sets (render : String → Option (List String))
    (startUrl : String) (opts : CrawlOptionsRef) (h : SetStore) (fuel : Nat)
    (h' : SetStore) (ru rv ru' rv' : Nat)
    (hru : opts.uniqueUrls = some ru) (hrv : opts.visitedUrls = some rv)
    (hne : ru ≠ rv) (hrul : ru < h.sets.length) (hrvl : rv < h.sets.length)
    (hrun : crawlWebsiteRef render startUrl opts h fuel = some (h', ru', rv')) :
    ru' = ru ∧ rv' = rv ∧
    (∃ fin, crawlWebsite render startUrl
        ⟨opts.maxDepth, opts.keywords, opts.baseUrl, some (readSet h ru),
          some (readSet h rv), opts.persist⟩ fuel = some fin ∧
      readSet h' ru = fin.uniq ∧ readSet h' rv = fin.visited) ∧
    (∀ r, r ≠ ru → r ≠ rv → readSet h' r = readSet h r) := by
  simp only [crawlWebsiteRef, hru, hrv] at hrun
  cases hcw : crawlWebsite render startUrl
      ⟨opts.maxDepth, opts.keywords, opts.baseUrl, some (readSet h ru),
        some (readSet h rv), opts.persist⟩ fuel with
  | none => rw [hcw] at hrun; cases hrun
  | some fin =>
    rw [hcw] at hrun
    have hinj := Option.some.inj hrun
    have hh : h' = writeSet (writeSet h ru fin.uniq) rv fin.visited :=
      (congrArg Prod.fst hinj).symm
    have hru2 : ru' = ru := (congrArg (fun x => x.2.1) hinj).symm
    have hrv2 : rv' = rv := (congrArg (fun x => x.2.2) hinj).symm
    refine ⟨hru2, hrv2, ⟨fin, rfl, ?_, ?_⟩, ?_⟩
    · rw [hh, readSet_writeSet_ne _ _ _ _ (Ne.symm hne),
        readSet_writeSet_self _ _ _ hrul]
    · rw [hh, readSet_writeSet_self]
      rw [writeSet_length]
      exact hrvl
    · intro r hr1 hr2
      rw [hh, readSet_writeSet_ne _ _ _ _ (Ne.symm hr2),
        readSet_writeSet_ne _ _ _ _ (Ne.symm hr1)]

/-- Witness for C10 at a concrete store and crawl. -/
theorem crawl_aliases_caller_sets_witness :
    readSet ⟨[["https://w10.com/docs"], ["https://w10.com/docs"],
      ["other"]]⟩ 2 = readSet ⟨[[], [], ["other"]]⟩ 2 :=
  (crawl_aliases_caller_sets (fun _ => some []) "https://w10.com/docs"
    ⟨3, [], none, some 0, some 1, false⟩ ⟨[[], [], ["other"]]⟩ 5
    ⟨[["https://w10.com/docs"], ["https://w10.com/docs"], ["other"]]⟩
    0 1 0 1 rfl rfl (by decide) (by decide) (by decide) (by decide)).2.2.2
    2 (by decide) (by decide)
